import Mathlib

/-!
# Verification of the `emf_reader` core (object graph, query engine, expansion)

A shallow embedding of `src/emf_reader/query.py` and `src/emf_reader/export.py`.
Model Objects are represented by natural-number identities; the ambient model
(class names, supertype names, reference slots with their `eGet` results,
attribute values, display names and persisted `_internal_id`s) is a record of
functions over those identities.  Python `None` entries and non-`EObject`
members of reference values are both represented by `Option.none` (the code
under study skips the two cases identically).  Python exceptions are modelled
with `Except String`; Python dictionaries are association lists read with
last-binding-wins lookup, mirroring insertion-with-overwrite.
-/

/-- Python values produced by `_json_safe` and by expression literals:
`None`, booleans, ints, strings, lists (also modelling tuple/set literals) and
string-keyed dicts. -/
inductive Value where
  | none
  | bool (b : Bool)
  | int (n : Int)
  | str (s : String)
  | list (vs : List Value)
  | dict (kvs : List (String × Value))
deriving Repr

mutual

/-- Python `==` on `Value`s: `True == 1` holds, numeric/str/list/dict compare
structurally, cross-kind comparison is `False` (never an error). -/
def pyEq : Value → Value → Bool
  | .none, .none => true
  | .bool a, .bool b => a == b
  | .bool a, .int n => (if a then (1 : Int) else 0) == n
  | .int n, .bool b => n == (if b then (1 : Int) else 0)
  | .int a, .int b => a == b
  | .str a, .str b => a == b
  | .list as, .list bs => pyEqL as bs
  | .dict as, .dict bs => pyEqD as bs
  | _, _ => false

def pyEqL : List Value → List Value → Bool
  | [], [] => true
  | a :: as, b :: bs => pyEq a b && pyEqL as bs
  | _, _ => false

def pyEqD : List (String × Value) → List (String × Value) → Bool
  | [], [] => true
  | (k, v) :: as, (k', v') :: bs => k == k' && pyEq v v' && pyEqD as bs
  | _, _ => false

end

/-- Values living in a predicate context: either a plain value or one of the two
closures `is_class` / `is_kind_of` bound to a particular object. -/
inductive PyVal where
  | val (v : Value)
  | fnIsClass (o : Nat)
  | fnIsKindOf (o : Nat)
deriving Repr

/-- Python `bool(...)` truthiness. Functions are truthy. -/
def truthy : PyVal → Bool
  | .val .none => false
  | .val (.bool b) => b
  | .val (.int n) => n != 0
  | .val (.str s) => !s.isEmpty
  | .val (.list vs) => !vs.isEmpty
  | .val (.dict kvs) => !kvs.isEmpty
  | .fnIsClass _ => true
  | .fnIsKindOf _ => true

/-- `ast.BoolOp` operators. -/
inductive BOp2 where
  | andOp
  | orOp
deriving Repr, DecidableEq

/-- `ast.UnaryOp` operators; only `Not` is in `_ALLOWED_OPS`. -/
inductive UOp where
  | notOp
  | usub
  | uadd
  | invert
deriving Repr, DecidableEq

/-- `ast.Compare` operators; `Is`/`IsNot` exist in the grammar but are not in
`_ALLOWED_OPS`. -/
inductive COp where
  | eq
  | ne
  | lt
  | le
  | gt
  | ge
  | isOp
  | isNot
  | inOp
  | notInOp
deriving Repr, DecidableEq

/-- The name `ast` gives a compare operator, for error messages. -/
def COp.astName : COp → String
  | .eq => "Eq"
  | .ne => "NotEq"
  | .lt => "Lt"
  | .le => "LtE"
  | .gt => "Gt"
  | .ge => "GtE"
  | .isOp => "Is"
  | .isNot => "IsNot"
  | .inOp => "In"
  | .notInOp => "NotIn"

/-- Membership of a compare operator in `_ALLOWED_OPS`. -/
def COp.allowed : COp → Bool
  | .isOp => false
  | .isNot => false
  | _ => true

/-- Python expression ASTs (`ast.parse(expr, mode="eval")` bodies).  The
constructors cover every node kind in `_ALLOWED_NODES`; `other` stands for any
node kind outside that tuple (`Attribute`, `BinOp`, `Lambda`, ...) carrying its
`ast` class name and child expressions. -/
inductive Expr where
  | name (id : String)
  | const (v : Value)
  | boolOp (op : BOp2) (values : List Expr)
  | unaryOp (op : UOp) (operand : Expr)
  | compare (left : Expr) (ops : List COp) (comparators : List Expr)
  | listE (elts : List Expr)
  | tupleE (elts : List Expr)
  | setE (elts : List Expr)
  | dictE (entries : List (Expr × Expr))
  | subscript (v : Expr) (index : Expr)
  | call (func : Expr) (args : List Expr) (keywords : List (Option String × Expr))
  | other (kind : String) (children : List Expr)
deriving Repr

mutual

/-- All nodes of an expression tree, the node itself included: the membership
extension of `ast.walk` (walk order is irrelevant to which checks fire). -/
def Expr.walkList : Expr → List Expr
  | .name id => [.name id]
  | .const v => [.const v]
  | .boolOp op values => .boolOp op values :: Expr.walkL values
  | .unaryOp op operand => .unaryOp op operand :: Expr.walkList operand
  | .compare left ops comparators =>
      .compare left ops comparators :: (Expr.walkList left ++ Expr.walkL comparators)
  | .listE elts => .listE elts :: Expr.walkL elts
  | .tupleE elts => .tupleE elts :: Expr.walkL elts
  | .setE elts => .setE elts :: Expr.walkL elts
  | .dictE entries => .dictE entries :: Expr.walkP entries
  | .subscript v index => .subscript v index :: (Expr.walkList v ++ Expr.walkList index)
  | .call func args keywords =>
      .call func args keywords :: (Expr.walkList func ++ Expr.walkL args ++ Expr.walkK keywords)
  | .other kind children => .other kind children :: Expr.walkL children

def Expr.walkL : List Expr → List Expr
  | [] => []
  | e :: rest => Expr.walkList e ++ Expr.walkL rest

def Expr.walkP : List (Expr × Expr) → List Expr
  | [] => []
  | (k, v) :: rest => Expr.walkList k ++ Expr.walkList v ++ Expr.walkP rest

def Expr.walkK : List (Option String × Expr) → List Expr
  | [] => []
  | (_, v) :: rest => Expr.walkList v ++ Expr.walkK rest

end

/-- `id.startswith("__")`, written on the character list. -/
def isDunder (id : String) : Bool :=
  id.toList.take 2 == ['_', '_']

/-- The per-node admissibility check of `_validate_expr`, at one node (its
children are checked by walking): the node kind must be in
`_ALLOWED_NODES + _ALLOWED_OPS`, a `Name` must not start with `__`, and a
`Call` must target `is_class`/`is_kind_of` by bare name with no keywords. -/
def nodeOk : Expr → Bool
  | .name id => !(isDunder id)
  | .const _ => true
  | .boolOp _ _ => true
  | .unaryOp op _ => op == .notOp
  | .compare _ ops _ => ops.all (·.allowed)
  | .listE _ => true
  | .tupleE _ => true
  | .setE _ => true
  | .dictE _ => true
  | .subscript _ _ => true
  | .call func _ keywords =>
      (match func with
       | .name fid => (fid == "is_class" || fid == "is_kind_of") && keywords.isEmpty
       | _ => false)
  | .other _ _ => false

/-- The error `_validate_expr` raises at one offending node. -/
def nodeErr : Expr → String
  | .name _ => "Invalid name in expression"
  | .unaryOp op _ =>
      "Unsupported expression element: " ++
        (match op with
         | .notOp => "Not"
         | .usub => "USub"
         | .uadd => "UAdd"
         | .invert => "Invert")
  | .compare _ ops _ =>
      "Unsupported expression element: " ++
        (match ops.find? (fun o => !o.allowed) with
         | some o => o.astName
         | Option.none => "Compare")
  | .call func _ _ =>
      (match func with
       | .name fid =>
           if fid == "is_class" || fid == "is_kind_of" then
             "Keyword arguments are not supported"
           else "Unsupported function: " ++ fid
       | _ => "Invalid function call in expression")
  | .other kind _ => "Unsupported expression element: " ++ kind
  | _ => "Unsupported expression element"

/-- Sequencing of two validation results: the first error wins. -/
def validateSeq (a b : Except String Unit) : Except String Unit :=
  match a with
  | .ok _ => b
  | .error msg => .error msg

mutual

/-- `_validate_expr`: every walked node must pass `nodeOk`, else a
`ValueError` is raised.  (`ast.walk` is breadth-first; a DFS visit reports the
same success/failure, only the choice among several errors can differ.) -/
def _validate_expr (e : Expr) : Except String Unit :=
  if nodeOk e then
    match e with
    | .name _ => .ok ()
    | .const _ => .ok ()
    | .boolOp _ values => validateL values
    | .unaryOp _ operand => _validate_expr operand
    | .compare left _ comparators => validateSeq (_validate_expr left) (validateL comparators)
    | .listE elts => validateL elts
    | .tupleE elts => validateL elts
    | .setE elts => validateL elts
    | .dictE entries => validateP entries
    | .subscript v index => validateSeq (_validate_expr v) (_validate_expr index)
    | .call func args keywords =>
        validateSeq (_validate_expr func) (validateSeq (validateL args) (validateK keywords))
    | .other _ children => validateL children
  else .error (nodeErr e)

def validateL : List Expr → Except String Unit
  | [] => .ok ()
  | e :: rest => validateSeq (_validate_expr e) (validateL rest)

def validateP : List (Expr × Expr) → Except String Unit
  | [] => .ok ()
  | (k, v) :: rest =>
      validateSeq (_validate_expr k) (validateSeq (_validate_expr v) (validateP rest))

def validateK : List (Option String × Expr) → Except String Unit
  | [] => .ok ()
  | (_, v) :: rest => validateSeq (_validate_expr v) (validateK rest)

end

/-! ## Dictionaries and the model of the Model Access Layer -/

/-- Python dict read on an insertion-ordered association list: the last binding
of a key wins (later insertions overwrite earlier ones). -/
def dictGet {κ α : Type} [BEq κ] (l : List (κ × α)) (k : κ) : Option α :=
  (l.reverse.find? (fun p => p.1 == k)).map (fun p => p.2)

/-- Python `k in d`. -/
def dictHas {κ α : Type} [BEq κ] (l : List (κ × α)) (k : κ) : Bool :=
  l.any (fun p => p.1 == k)

/-- One attribute feature of an object: its name, `many` flag and the `eGet`
result (`Option.none` is Python `None`); values are already `_json_safe`
primitives, on which `_json_safe` is the identity. -/
structure AttrSlot where
  name : String
  many : Bool
  value : Option Value
deriving Repr

/-- The `eGet` result of a reference feature.  `Option.none` members stand for
Python `None` (and for non-`EObject` members, which every embedded code path
skips the same way). -/
inductive SlotVal where
  | scalar (v : Option Nat)
  | many (items : List (Option Nat))
deriving Repr, DecidableEq

/-- One reference feature of an object together with its `eGet` result. -/
structure Slot where
  refName : String
  containment : Bool
  val : SlotVal
deriving Repr, DecidableEq

/-- The Model Access Layer: per-object introspection, with Model Objects named
by naturals.  `superTypes` lists the names of `eClass.eAllSuperTypes()`,
`displayName` is `getattr(obj, "name", None)` when it is a string, and
`internalId` is the `_internal_id` attribute when it is a string. -/
structure Model where
  className : Nat → String
  superTypes : Nat → List String
  nsUri : Nat → Option String
  slots : Nat → List Slot
  attrs : Nat → List AttrSlot
  displayName : Nat → Option String
  internalId : Nat → Option String

/-- `_all_features(obj, "eAllReferences")`. -/
def allReferences (m : Model) (o : Nat) : List Slot := m.slots o

/-- `_containment_features`: the reference features flagged `containment`. -/
def _containment_features (m : Model) (o : Nat) : List Slot :=
  (m.slots o).filter (fun s => s.containment)

/-- `_iter_values`: the `EObject` members of an `eGet` result, in order. -/
def _iter_values : SlotVal → List Nat
  | .scalar (some t) => [t]
  | .scalar none => []
  | .many items => items.filterMap id

/-! ## `query.py`: predicate context and expression evaluation -/

/-- A predicate context: the dict `build_context` returns. -/
def Ctx := List (String × PyVal)

/-- `internal_id if isinstance(internal_id, str) and internal_id else fallback`
— the preferred-identifier rule shared by `build_context`, `_id_label` and
`_preferred_id`. -/
def preferredStr (internal : Option String) (fallback : String) : String :=
  match internal with
  | some s => if s.isEmpty then fallback else s
  | none => fallback

/-- The attribute serialisation shared by `build_context` and the exporters: a
many-valued attribute whose `eGet` is `None` becomes `[]`, otherwise the value
(already `_json_safe`) is kept. -/
def attrValue (a : AttrSlot) : Value :=
  if a.many then
    match a.value with
    | some v => v
    | none => .list []
  else
    match a.value with
    | some v => v
    | none => .none

/-- `build_context`: the reserved keys are written first and then
`ctx.update(attrs)` appends the attribute bindings, so with last-wins lookup an
attribute named like a reserved key shadows it — exactly the Python dict
behaviour. -/
def build_context (m : Model) (o : Nat) (objId path : String) : Ctx :=
  let attrsD : List (String × Value) := (m.attrs o).map (fun a => (a.name, attrValue a))
  let preferred := preferredStr (m.internalId o) objId
  [ ("eclass", PyVal.val (.str (m.className o)))
  , ("nsuri", PyVal.val (match m.nsUri o with | some s => .str s | none => .none))
  , ("id", PyVal.val (.str preferred))
  , ("local_id", PyVal.val (.str objId))
  , ("ID", PyVal.val (.str preferred))
  , ("path", PyVal.val (.str path))
  , ("attrs", PyVal.val (.dict attrsD))
  , ("is_class", PyVal.fnIsClass o)
  , ("is_kind_of", PyVal.fnIsKindOf o)
  ] ++ attrsD.map (fun p => (p.1, PyVal.val p.2))

/-- Python `==` lifted to context values.  Closures compare per bound object
(an approximation of object identity, unreachable from validated predicates). -/
def pyvalEq : PyVal → PyVal → Bool
  | .val a, .val b => pyEq a b
  | .fnIsClass a, .fnIsClass b => a == b
  | .fnIsKindOf a, .fnIsKindOf b => a == b
  | _, _ => false

/-- Numeric view of a value (`bool` is an `int` in Python). -/
def Value.asInt : Value → Option Int
  | .bool b => some (if b then 1 else 0)
  | .int n => some n
  | _ => Option.none

/-- Python `in` for the containers the grammar can produce. -/
def pyIn (l r : PyVal) : Except String Bool :=
  match r with
  | .val (.list vs) => .ok (vs.any (fun w => pyvalEq l (.val w)))
  | .val (.dict kvs) => .ok (kvs.any (fun p => pyvalEq l (.val (.str p.1))))
  | .val (.str t) =>
      match l with
      | .val (.str s) => .ok (decide (List.IsInfix s.toList t.toList))
      | _ => .error "TypeError: in <string> requires string as left operand"
  | _ => .error "TypeError: argument is not iterable"

/-- One comparison operator applied to two operands; `Is`/`IsNot` never reach
evaluation because validation rejects them. -/
def applyCmp (op : COp) (l r : PyVal) : Except String Bool :=
  match op with
  | .eq => .ok (pyvalEq l r)
  | .ne => .ok (!pyvalEq l r)
  | .inOp => pyIn l r
  | .notInOp => (pyIn l r).map (fun b => !b)
  | .isOp => .error "Is comparison is rejected by validation"
  | .isNot => .error "IsNot comparison is rejected by validation"
  | _ =>
      match l, r with
      | .val a, .val b =>
          match a.asInt, b.asInt with
          | some x, some y =>
              .ok (match op with
                   | .lt => x < y
                   | .le => x ≤ y
                   | .gt => y < x
                   | _ => y ≤ x)
          | _, _ =>
              match a, b with
              | .str s, .str t =>
                  .ok (match op with
                       | .lt => s < t
                       | .le => s ≤ t
                       | .gt => t < s
                       | _ => t ≤ s)
              | _, _ => .error "TypeError: unsupported comparison"
      | _, _ => .error "TypeError: unsupported comparison"

/-- Python list/dict subscripting (negative list indices wrap once). -/
def pySubscript (c i : PyVal) : Except String PyVal :=
  match c, i with
  | .val (.list vs), .val idx =>
      (match idx.asInt with
       | some n =>
           let k : Int := if n < 0 then n + vs.length else n
           if k < 0 then .error "IndexError: list index out of range"
           else
             match vs.get? k.toNat with
             | some v => .ok (.val v)
             | none => .error "IndexError: list index out of range"
       | none => .error "TypeError: list indices must be integers")
  | .val (.dict kvs), .val (.str s) =>
      (match dictGet kvs s with
       | some v => .ok (.val v)
       | none => .error "KeyError")
  | _, _ => .error "TypeError: unsupported subscript"

mutual

/-- Evaluation of a compiled expression in a context: `eval(code,
{"__builtins__": {}}, ctx)`.  Name lookup is the context dict alone; the only
callables are the two context closures. -/
def evalExpr (m : Model) (ctx : Ctx) : Expr → Except String PyVal
  | .const v => .ok (.val v)
  | .name id =>
      (match dictGet ctx id with
       | some v => .ok v
       | none => .error ("NameError: name " ++ id ++ " is not defined"))
  | .boolOp .andOp values => evalAnd m ctx values
  | .boolOp .orOp values => evalOr m ctx values
  | .unaryOp op operand => do
      let v ← evalExpr m ctx operand
      match op with
      | .notOp => .ok (.val (.bool (!truthy v)))
      | _ => .error "TypeError: unary operator rejected by validation"
  | .compare left ops comparators => do
      let l ← evalExpr m ctx left
      evalCmpChain m ctx l ops comparators
  | .listE elts => do
      let vs ← evalElts m ctx elts
      .ok (.val (.list vs))
  | .tupleE elts => do
      let vs ← evalElts m ctx elts
      .ok (.val (.list vs))
  | .setE elts => do
      let vs ← evalElts m ctx elts
      .ok (.val (.list (vs.foldl (fun acc v => if acc.any (fun w => pyEq w v) then acc else acc ++ [v]) [])))
  | .dictE entries => do
      let kvs ← evalEntries m ctx entries
      .ok (.val (.dict kvs))
  | .subscript v index => do
      let cv ← evalExpr m ctx v
      let iv ← evalExpr m ctx index
      pySubscript cv iv
  | .call func args keywords => do
      let f ← evalExpr m ctx func
      let argVals ← evalArgs m ctx args
      if !keywords.isEmpty then .error "TypeError: unexpected keyword argument"
      else
        match f with
        | .fnIsClass o =>
            (match argVals with
             | [a] => .ok (.val (.bool (pyvalEq (.val (.str (m.className o))) a)))
             | _ => .error "TypeError: is_class takes exactly one argument")
        | .fnIsKindOf o =>
            (match argVals with
             | [a] =>
                 .ok (.val (.bool (pyvalEq (.val (.str (m.className o))) a ||
                       (m.superTypes o).any (fun s => pyvalEq (.val (.str s)) a))))
             | _ => .error "TypeError: is_kind_of takes exactly one argument")
        | .val _ => .error "TypeError: object is not callable"
  | .other _ _ => .error "eval of a node rejected by validation"

def evalAnd (m : Model) (ctx : Ctx) : List Expr → Except String PyVal
  | [] => .error "BoolOp with no operands"
  | [e] => evalExpr m ctx e
  | e :: rest => do
      let v ← evalExpr m ctx e
      if truthy v then evalAnd m ctx rest else .ok v

def evalOr (m : Model) (ctx : Ctx) : List Expr → Except String PyVal
  | [] => .error "BoolOp with no operands"
  | [e] => evalExpr m ctx e
  | e :: rest => do
      let v ← evalExpr m ctx e
      if truthy v then .ok v else evalOr m ctx rest

def evalCmpChain (m : Model) (ctx : Ctx) (l : PyVal) :
    List COp → List Expr → Except String PyVal
  | [], [] => .ok (.val (.bool true))
  | op :: ops, c :: cs => do
      let r ← evalExpr m ctx c
      let b ← applyCmp op l r
      if b then
        match ops, cs with
        | [], [] => .ok (.val (.bool true))
        | ops', cs' => evalCmpChain m ctx r ops' cs'
      else .ok (.val (.bool false))
  | _, _ => .error "malformed Compare node"

def evalElts (m : Model) (ctx : Ctx) : List Expr → Except String (List Value)
  | [] => .ok []
  | e :: rest => do
      let v ← evalExpr m ctx e
      match v with
      | .val v' => do
          let vs ← evalElts m ctx rest
          .ok (v' :: vs)
      | _ => .error "TypeError: closure in a literal container is not modelled"

def evalEntries (m : Model) (ctx : Ctx) : List (Expr × Expr) → Except String (List (String × Value))
  | [] => .ok []
  | (k, v) :: rest => do
      let kv ← evalExpr m ctx k
      let vv ← evalExpr m ctx v
      match kv, vv with
      | .val (.str ks), .val vv' => do
          let kvs ← evalEntries m ctx rest
          .ok ((ks, vv') :: kvs)
      | _, _ => .error "TypeError: only string dict keys are modelled"

def evalArgs (m : Model) (ctx : Ctx) : List Expr → Except String (List PyVal)
  | [] => .ok []
  | e :: rest => do
      let v ← evalExpr m ctx e
      let vs ← evalArgs m ctx rest
      .ok (v :: vs)

end

/-- `build_predicate` (parsing `ast.parse` is outside the embedding:
expressions arrive as ASTs).  Validation failure raises the `ValueError`;
otherwise the returned predicate evaluates the expression against a context
and takes `bool(...)` of the result. -/
def build_predicate (e : Expr) :
    Except String (Model → Ctx → Except String Bool) :=
  match _validate_expr e with
  | .error msg => .error msg
  | .ok _ => .ok (fun m ctx => (evalExpr m ctx e).map truthy)

/-! ## `export.py`: object graph construction -/

/-- A Graph Node: a Model Object with its session-local id and canonical
path. -/
structure ObjectInfo where
  obj : Nat
  objId : String
  path : String
deriving Repr, DecidableEq

/-- A containment (or reference) edge row. -/
structure Edge where
  srcId : String
  srcClass : String
  feature : String
  dstId : String
  dstClass : String
  containment : Bool
deriving Repr, DecidableEq

/-- The traversal state of `build_object_graph`: the insertion-ordered `seen`
dict and the edge list. -/
structure GState where
  seen : List (Nat × ObjectInfo)
  edges : List Edge
deriving Repr, DecidableEq

/-- `ensure`: return the existing `ObjectInfo` for an already-seen object
(first-visit-wins for path and id), otherwise mint `o<len(seen)+1>`. -/
def ensure (o : Nat) (path : String) (s : GState) : ObjectInfo × GState :=
  match dictGet s.seen o with
  | some info => (info, s)
  | Option.none =>
      let info : ObjectInfo := ⟨o, "o" ++ toString (s.seen.length + 1), path⟩
      (info, { s with seen := s.seen ++ [(o, info)] })

/-- The enumerated non-`None` children of one containment slot, with the slot
index each child is reported at (`enumerate` for many-valued slots, index `0`
for scalar ones). -/
def slotChildren : SlotVal → List (Nat × Nat)
  | .scalar (some c) => [(0, c)]
  | .scalar Option.none => []
  | .many items =>
      (items.enum.filterMap (fun p =>
        match p.2 with
        | some c => some (p.1, c)
        | Option.none => Option.none))

/-- The nested loop of `visit` flattened: for each containment feature in
declared order, its non-`None` children with their slot index, each tagged with
the feature name — `(feature name, slot index, child)` triples in the order the
source iterates them. -/
def childSpecs (m : Model) (o : Nat) : List (String × Nat × Nat) :=
  (_containment_features m o).flatMap (fun slot =>
    (slotChildren slot.val).map (fun p => (slot.refName, p.1, p.2)))

/-- The loop body of `visit` for one `(feature, index, child)` triple: ensure
the child (minting id and path when fresh), record the containment edge, and
recurse (`recurse` is the continuation `visit` at one fuel less). -/
def visitStep (m : Model) (recurse : Nat → String → GState → GState)
    (info : ObjectInfo) (oCls : String) (acc : GState) (spec : String × Nat × Nat) : GState :=
  let child := spec.2.2
  let childPath := info.path ++ "/" ++ spec.1 ++ "[" ++ toString spec.2.1 ++ "]"
  let (childInfo, s1) := ensure child childPath acc
  let s2 := { s1 with edges := s1.edges ++
    [⟨info.objId, oCls, spec.1, childInfo.objId, m.className child, true⟩] }
  recurse child childPath s2

/-- `visit`: pre-order walk over containment features.  The `fuel` argument
bounds the recursion depth (Python recursion is unbounded; every theorem about
`visit` supplies enough fuel).  Note the source recurses into a child and
appends an edge whether or not the child was already seen. -/
def visit (m : Model) : Nat → Nat → String → GState → GState
  | 0, _, _, s => s
  | fuel + 1, o, path, s =>
      let (info, s0) := ensure o path s
      (childSpecs m o).foldl (visitStep m (visit m fuel) info (m.className o)) s0

/-- `build_object_graph`: visit each root in order with path
`/<ClassName>[<index>]`; return the node list in first-visit order and the
containment edges. -/
def build_object_graph (m : Model) (fuel : Nat) (roots : List Nat) :
    List ObjectInfo × List Edge :=
  let s := roots.enum.foldl
    (fun s p =>
      visit m fuel p.2 ("/" ++ m.className p.2 ++ "[" ++ toString p.1 ++ "]") s)
    ({ seen := [], edges := [] } : GState)
  (s.seen.map (fun p => p.2), s.edges)

/-! ## `export.py`: labels and preferred identifiers -/

/-- `_node_label`: the `name` attribute if a non-empty string, else `""`. -/
def _node_label (m : Model) (o : Nat) : String :=
  match m.displayName o with
  | some s => if s.isEmpty then "" else s
  | Option.none => ""

/-- `_id_label`: the persisted `_internal_id` if a non-empty string, else the
fallback. -/
def _id_label (m : Model) (o : Nat) (fallback : String) : String :=
  preferredStr (m.internalId o) fallback

/-- `_preferred_id` delegates to `_id_label`. -/
def _preferred_id (m : Model) (o : Nat) (fallback : String) : String :=
  _id_label m o fallback

/-! ## `export.py`: reachability expansion (`_expand_from`) -/

/-- Metric dictionaries (`dict[str, int]`), association lists read with
`dictGet`. -/
abbrev Metrics := List (String × Int)

/-- Truthiness of `expand_classes`: `None` and the empty set are falsy. -/
def classRestricted (expand_classes : Option (List String)) : Bool :=
  match expand_classes with
  | some l => !l.isEmpty
  | Option.none => false

/-- `expand_classes and target.eClass.name not in expand_classes`. -/
def classBlocked (expand_classes : Option (List String)) (cls : String) : Bool :=
  match expand_classes with
  | some l => !l.isEmpty && !(l.contains cls)
  | Option.none => false

/-- The per-call Expansion State of `_expand_from`. -/
structure ExpSt where
  seen : List Nat
  frontier : List Nat
  pathMap : List (Nat × String)
  idPathMap : List (Nat × String)
  depth : Nat
  edgesTraversed : Nat
  loopsDetected : Nat
deriving Repr, DecidableEq

/-- The while-condition's depth part:
`expand_depth is None or expand_depth < 0 or depth < expand_depth`. -/
def depthOk (expand_depth : Option Int) (depth : Nat) : Bool :=
  match expand_depth with
  | Option.none => true
  | some d => d < 0 || (depth : Int) < d

/-- Handling of one candidate target in the many-valued branch: the edge is
counted before the class filter; a fresh target is recorded in `seen`, the next
frontier and both path maps (`id_map[target]` is a plain index — a `KeyError`
if the target is not an input object). -/
def stepTargetMany (m : Model) (ec : Option (List String))
    (id_map : List (Nat × String)) (parent : Nat) (st : ExpSt) (t : Option Nat) :
    Except String ExpSt :=
  match t with
  | Option.none => .ok st
  | some target =>
      let st := { st with edgesTraversed := st.edgesTraversed + 1 }
      if classBlocked ec (m.className target) then .ok st
      else if st.seen.contains target then
        .ok { st with loopsDetected := st.loopsDetected + 1 }
      else do
        let parentPath ←
          match dictGet st.pathMap parent with
          | some p => Except.ok p
          | Option.none => Except.error "KeyError: path_map"
        let targetFallback ←
          match dictGet id_map target with
          | some s => Except.ok s
          | Option.none => Except.error "KeyError: id_map"
        let parentIdPath := (dictGet st.idPathMap parent).getD ""
        .ok { st with
          seen := st.seen ++ [target]
          frontier := st.frontier ++ [target]
          pathMap := st.pathMap ++ [(target, parentPath ++ "/" ++ _node_label m target)]
          idPathMap := st.idPathMap ++
            [(target, parentIdPath ++ "/" ++ _id_label m target targetFallback)] }

/-- Handling of the scalar branch: the class filter fires before the edge is
counted (unlike the many-valued branch). -/
def stepTargetScalar (m : Model) (ec : Option (List String))
    (id_map : List (Nat × String)) (parent : Nat) (st : ExpSt) (t : Option Nat) :
    Except String ExpSt :=
  match t with
  | Option.none => .ok st
  | some target =>
      if classBlocked ec (m.className target) then .ok st
      else
        let st := { st with edgesTraversed := st.edgesTraversed + 1 }
        if st.seen.contains target then
          .ok { st with loopsDetected := st.loopsDetected + 1 }
        else do
          let parentPath ←
            match dictGet st.pathMap parent with
            | some p => Except.ok p
            | Option.none => Except.error "KeyError: path_map"
          let targetFallback ←
            match dictGet id_map target with
            | some s => Except.ok s
            | Option.none => Except.error "KeyError: id_map"
          let parentIdPath := (dictGet st.idPathMap parent).getD ""
          .ok { st with
            seen := st.seen ++ [target]
            frontier := st.frontier ++ [target]
            pathMap := st.pathMap ++ [(target, parentPath ++ "/" ++ _node_label m target)]
            idPathMap := st.idPathMap ++
              [(target, parentIdPath ++ "/" ++ _id_label m target targetFallback)] }

/-- All reference slots of one frontier object, processed in order. -/
def stepObj (m : Model) (ec : Option (List String)) (id_map : List (Nat × String))
    (st : ExpSt) (o : Nat) : Except String ExpSt :=
  (allReferences m o).foldlM
    (fun acc slot =>
      match slot.val with
      | .many items => items.foldlM (fun a t => stepTargetMany m ec id_map o a t) acc
      | .scalar v => stepTargetScalar m ec id_map o acc v)
    st

/-- One iteration of the while loop: process every frontier object, then swap
in the next frontier and bump the depth. -/
def expandStep (m : Model) (ec : Option (List String)) (id_map : List (Nat × String))
    (st : ExpSt) : Except String ExpSt := do
  let st' ← st.frontier.foldlM (stepObj m ec id_map) { st with frontier := [] }
  .ok { st' with depth := st'.depth + 1 }

/-- The while loop of `_expand_from`, fuelled (the Python loop has no bound;
termination for sufficient fuel is proved below). -/
def expandLoop (m : Model) (ec : Option (List String)) (ed : Option Int)
    (id_map : List (Nat × String)) : Nat → ExpSt → Except String ExpSt
  | 0, st => .ok st
  | fuel + 1, st =>
      if st.frontier.isEmpty || !depthOk ed st.depth then .ok st
      else
        match expandStep m ec id_map st with
        | .error e => .error e
        | .ok st' => expandLoop m ec ed id_map fuel st'

/-- Python `set(start)` (insertion-ordered de-duplication; only membership and
cardinality of the resulting set are observable). -/
def dedupFirst (l : List Nat) : List Nat :=
  l.foldl (fun acc o => if acc.contains o then acc else acc ++ [o]) []

/-- Start-node selection of `_expand_from`: class-restricted nodes are skipped
before their context is even built; predicate evaluation errors propagate. -/
def selectStart (m : Model) (pred : Model → Ctx → Except String Bool)
    (ec : Option (List String)) : List ObjectInfo → Except String (List Nat)
  | [] => .ok []
  | info :: rest =>
      if classRestricted ec && !((ec.getD []).contains (m.className info.obj)) then
        selectStart m pred ec rest
      else do
        let b ← pred m (build_context m info.obj info.objId info.path)
        let tail ← selectStart m pred ec rest
        .ok (if b then info.obj :: tail else tail)

/-- The metrics `_expand_from` returns for an empty start set. -/
def zeroExpandMetrics : Metrics :=
  [("start_nodes", 0), ("nodes_seen", 0), ("edges_traversed", 0),
   ("loops_detected", 0), ("max_depth", 0)]

/-- `_expand_from`.  Returns the surviving input nodes, the metrics dict and
the label/id path maps. -/
def _expand_from (m : Model) (objects : List ObjectInfo) (expand_expr : Expr)
    (expand_depth : Option Int) (expand_classes : Option (List String)) (fuel : Nat) :
    Except String (List ObjectInfo × Metrics × List (Nat × String) × List (Nat × String)) := do
  let predicate ← build_predicate expand_expr
  let obj_map : List (Nat × ObjectInfo) := objects.map (fun i => (i.obj, i))
  let id_map : List (Nat × String) := objects.map (fun i => (i.obj, i.objId))
  let start ← selectStart m predicate expand_classes objects
  if start.isEmpty then
    .ok ([], zeroExpandMetrics, [], [])
  else
    let st0 : ExpSt :=
      { seen := dedupFirst start
        frontier := start
        pathMap := start.map (fun o => (o, "/" ++ _node_label m o))
        idPathMap := start.filterMap (fun o =>
          (dictGet id_map o).map (fun fid => (o, "/" ++ _id_label m o fid)))
        depth := 0
        edgesTraversed := 0
        loopsDetected := 0 }
    let st ← expandLoop m expand_classes expand_depth id_map fuel st0
    .ok (st.seen.filterMap (fun o => dictGet obj_map o),
         [("start_nodes", (start.length : Int)), ("nodes_seen", (st.seen.length : Int)),
          ("edges_traversed", (st.edgesTraversed : Int)),
          ("loops_detected", (st.loopsDetected : Int)), ("max_depth", (st.depth : Int))],
         st.pathMap, st.idPathMap)

/-! ## `export.py`: neighborhood expansion (`_neighbor_expand`) -/

/-- The per-call state of `_neighbor_expand`. -/
structure NbSt where
  seen : List Nat
  frontier : List Nat
  edgesTraversed : Nat
  depth : Nat
deriving Repr, DecidableEq

/-- One frontier object of `_neighbor_expand`: visit the (possibly duplicated)
reference list — all references, then the containment features again — count
every `EObject` member and add unseen ones. -/
def nbStepObj (m : Model) (include_containment include_references : Bool)
    (acc : NbSt) (o : Nat) : NbSt :=
  let refs :=
    (if include_references then allReferences m o else []) ++
    (if include_containment then _containment_features m o else [])
  refs.foldl
    (fun acc slot =>
      (_iter_values slot.val).foldl
        (fun a t =>
          let a := { a with edgesTraversed := a.edgesTraversed + 1 }
          if a.seen.contains t then a
          else { a with seen := a.seen ++ [t], frontier := a.frontier ++ [t] })
        acc)
    acc

/-- One iteration of the hop loop. -/
def nbStep (m : Model) (include_containment include_references : Bool)
    (st : NbSt) : NbSt :=
  let st' := st.frontier.foldl (nbStepObj m include_containment include_references)
    { st with frontier := [] }
  { st' with depth := st'.depth + 1 }

/-- The `while frontier and depth < hops` loop, fuelled. -/
def nbLoop (m : Model) (include_containment include_references : Bool) (hops : Int) :
    Nat → NbSt → NbSt
  | 0, st => st
  | fuel + 1, st =>
      if st.frontier.isEmpty || !((st.depth : Int) < hops) then st
      else nbLoop m include_containment include_references hops fuel
        (nbStep m include_containment include_references st)

/-- `_neighbor_expand`.  The seed loop is `selectStart` with no class
restriction (the function has none). -/
def _neighbor_expand (m : Model) (objects : List ObjectInfo) (seed_expr : Expr)
    (hops : Int) (include_containment : Bool) (include_references : Bool)
    (fuel : Nat) : Except String (List ObjectInfo × Metrics) := do
  let predicate ← build_predicate seed_expr
  let obj_map : List (Nat × ObjectInfo) := objects.map (fun i => (i.obj, i))
  let seeds ← selectStart m predicate Option.none objects
  if seeds.isEmpty then
    .ok ([], [("seed_nodes", 0), ("nodes_seen", 0), ("edges_traversed", 0), ("max_hops", 0)])
  else
    let st0 : NbSt :=
      { seen := dedupFirst seeds, frontier := seeds, edgesTraversed := 0, depth := 0 }
    let st := nbLoop m include_containment include_references hops fuel st0
    .ok (st.seen.filterMap (fun o => dictGet obj_map o),
         [("seed_nodes", (seeds.length : Int)), ("nodes_seen", (st.seen.length : Int)),
          ("edges_traversed", (st.edgesTraversed : Int)), ("max_hops", (st.depth : Int))])

/-! ## `export.py`: stage composition (`_apply_filter`) -/

/-- Python truthiness of an optional metrics dict (`None` and `{}` falsy). -/
def mTruthy (mo : Option Metrics) : Bool :=
  match mo with
  | some d => !d.isEmpty
  | Option.none => false

/-- The metric-merge steps of `_apply_filter`:
`{**metrics, **neighbor_metrics}` when both are truthy (later bindings win on
read), else whichever exists. -/
def mergeMetrics (metrics neighbor_metrics : Option Metrics) : Option Metrics :=
  if mTruthy neighbor_metrics && mTruthy metrics then
    some ((metrics.getD []) ++ (neighbor_metrics.getD []))
  else if mTruthy neighbor_metrics then neighbor_metrics
  else metrics

/-- The final predicate filter loop of `_apply_filter`. -/
def filterObjects (m : Model) (pred : Model → Ctx → Except String Bool) :
    List ObjectInfo → Except String (List ObjectInfo)
  | [] => .ok []
  | info :: rest => do
      let b ← pred m (build_context m info.obj info.objId info.path)
      let tail ← filterObjects m pred rest
      .ok (if b then info :: tail else tail)

/-- `_apply_filter`: optional neighborhood expansion, then optional
reachability expansion, then the optional final predicate filter, with the
path-map restriction and metric merging of the source. -/
def _apply_filter (m : Model) (objects : List ObjectInfo)
    (filter_expr expand_expr : Option Expr) (expand_depth : Option Int)
    (expand_classes : Option (List String)) (neighbor_expr : Option Expr)
    (neighbor_hops : Option Int) (fuel : Nat) :
    Except String (List ObjectInfo × Option Metrics ×
      Option (List (Nat × String)) × Option (List (Nat × String))) := do
  let stage1 ←
    match neighbor_expr, neighbor_hops with
    | some ne, some nh => do
        let r ← _neighbor_expand m objects ne nh true true fuel
        pure (r.1, some r.2)
    | _, _ => pure (objects, (Option.none : Option Metrics))
  let objects1 := stage1.1
  let neighbor_metrics := stage1.2
  let stage2 ←
    match expand_expr with
    | some ee => do
        let r ← _expand_from m objects1 ee expand_depth expand_classes fuel
        pure (r.1, some r.2.1, some r.2.2.1, some r.2.2.2)
    | Option.none =>
        pure (objects1, (Option.none : Option Metrics),
          (Option.none : Option (List (Nat × String))),
          (Option.none : Option (List (Nat × String))))
  let filtered := stage2.1
  let metrics := stage2.2.1
  let path_map := stage2.2.2.1
  let id_path_map := stage2.2.2.2
  match filter_expr with
  | Option.none =>
      .ok (filtered, mergeMetrics metrics neighbor_metrics, path_map, id_path_map)
  | some fe => do
      let predicate ← build_predicate fe
      let result ← filterObjects m predicate filtered
      let path_map' := path_map.map (fun pm =>
        result.filterMap (fun info => (dictGet pm info.obj).map (fun p => (info.obj, p))))
      let id_path_map' := id_path_map.map (fun ipm =>
        result.filterMap (fun info => (dictGet ipm info.obj).map (fun p => (info.obj, p))))
      .ok (result, mergeMetrics metrics neighbor_metrics, path_map', id_path_map')

/-! ## `export.py`: the JSON exporter -/

/-- One JSON entry of `export_json` (field `ID` rendered as `upperId`). -/
structure Entry where
  id : String
  localId : String
  upperId : String
  eClass : String
  nsURI : Option String
  attributes : List (String × Value)
  containment : List String
  references : List (String × List String)
  path : String

/-- `_reference_ids`: preferred ids of the slot's members that are in the
(filtered) id map. -/
def _reference_ids (slot : Slot) (id_map : List (Nat × String)) : List String :=
  (_iter_values slot.val).filterMap (fun v => dictGet id_map v)

/-- The JSON entry built for one surviving node.  The containment-id loop of
the source keeps exactly the slot members present in `id_map` (Python `None`
and pruned children fail the `in id_map` test), which coincides with
`_reference_ids`. -/
def entryFor (m : Model) (id_map : List (Nat × String)) (info : ObjectInfo) : Entry :=
  let o := info.obj
  { id := _preferred_id m o info.objId
    localId := info.objId
    upperId := _id_label m o info.objId
    eClass := m.className o
    nsURI := m.nsUri o
    attributes := (m.attrs o).map (fun a => (a.name, attrValue a))
    containment := (_containment_features m o).flatMap (fun slot => _reference_ids slot id_map)
    references := ((allReferences m o).filter (fun s => !s.containment)).map
      (fun s => (s.refName, _reference_ids s id_map))
    path := info.path }

/-- `export_json`, with the file side effect made explicit: `writes` is the
trace of output files opened and written, threaded in program order.  The
output file is opened only after `_apply_filter` (and with it every predicate
compilation) has returned. -/
def export_json (m : Model) (roots : List Nat) (output_path : String)
    (filter_expr expand_expr : Option Expr) (expand_depth : Option Int)
    (expand_classes : Option (List String)) (neighbor_expr : Option Expr)
    (neighbor_hops : Option Int) (fuel : Nat) (writes : List String) :
    Except String (List Entry × Option Metrics) × List String :=
  let g := build_object_graph m fuel roots
  match _apply_filter m g.1 filter_expr expand_expr expand_depth expand_classes
      neighbor_expr neighbor_hops fuel with
  | .error e => (.error e, writes)
  | .ok (objs, metrics, _, _) =>
      let id_map := objs.map (fun i => (i.obj, _preferred_id m i.obj i.objId))
      let entries := objs.map (entryFor m id_map)
      (.ok (entries, metrics), writes ++ [output_path])

/-! ## Helpers for stating results, and concrete models used by the claims -/

/-- The node identities of an `_expand_from` result (empty on error). -/
def resNodes (r : Except String (List ObjectInfo × Metrics ×
    List (Nat × String) × List (Nat × String))) : List Nat :=
  match r with
  | .ok t => t.1.map (fun i => i.obj)
  | .error _ => []

/-- One metric of an `_expand_from` result (`none` on error or missing key). -/
def resMetric (r : Except String (List ObjectInfo × Metrics ×
    List (Nat × String) × List (Nat × String))) (k : String) : Option Int :=
  match r with
  | .ok t => dictGet t.2.1 k
  | .error _ => Option.none

/-- One metric of a `_neighbor_expand` result. -/
def nbMetric (r : Except String (List ObjectInfo × Metrics)) (k : String) : Option Int :=
  match r with
  | .ok t => dictGet t.2 k
  | .error _ => Option.none

/-- The merged metric dict of an `_apply_filter` result (`none` on error or
when no stage produced metrics). -/
def afMetric (r : Except String (List ObjectInfo × Option Metrics ×
    Option (List (Nat × String)) × Option (List (Nat × String)))) (k : String) : Option Int :=
  match r with
  | .ok t => match t.2.1 with
             | some d => dictGet d k
             | Option.none => Option.none
  | .error _ => Option.none

/-- Compile an expression and evaluate the predicate on one node's context —
the composition every filter/seed/expand stage performs per node. -/
def runPredicate (e : Expr) (m : Model) (o : Nat) (objId path : String) :
    Except String Bool :=
  match build_predicate e with
  | .ok p => p m (build_context m o objId path)
  | .error msg => .error msg

/-- Every target reachable in one reference hop from an object: the `EObject`
members of all its reference slots. -/
def allTargets (m : Model) (o : Nat) : List Nat :=
  (m.slots o).flatMap (fun s => _iter_values s.val)

/-- The containment children the graph walk follows, in iteration order. -/
def containChildren (m : Model) (o : Nat) : List Nat :=
  (childSpecs m o).map (fun p => p.2.2)

/-- A model with no classes, slots or attributes, base for the concrete
witnesses. -/
def emptyModel : Model :=
  { className := fun _ => ""
  , superTypes := fun _ => []
  , nsUri := fun _ => Option.none
  , slots := fun _ => []
  , attrs := fun _ => []
  , displayName := fun _ => Option.none
  , internalId := fun _ => Option.none }

/-- The linear chain `A → B → C → D` of the depth-semantics scenario
(scalar non-containment references). -/
def chainM : Model :=
  { emptyModel with
    className := fun o =>
      if o = 1 then "A" else if o = 2 then "B" else if o = 3 then "C" else "D"
    slots := fun o =>
      if o = 1 then [⟨"next", false, .scalar (some 2)⟩]
      else if o = 2 then [⟨"next", false, .scalar (some 3)⟩]
      else if o = 3 then [⟨"next", false, .scalar (some 4)⟩]
      else [] }

/-- The chain's four graph nodes. -/
def chainObjs : List ObjectInfo :=
  [⟨1, "o1", "/A[0]"⟩, ⟨2, "o2", "/A[0]/next[0]"⟩, ⟨3, "o3", "/A[0]/next[0]/next[0]"⟩,
   ⟨4, "o4", "/A[0]/next[0]/next[0]/next[0]"⟩]

/-- `eclass == '<c>'`. -/
def exprEclassIs (c : String) : Expr := .compare (.name "eclass") [.eq] [.const (.str c)]

/-- The constant-`True` expression. -/
def exprTrue : Expr := .const (.bool true)

/-- `S → T → T → S…`: a reference 3-cycle whose only start-class node is `1`. -/
def cycleM : Model :=
  { emptyModel with
    className := fun o => if o = 1 then "S" else "T"
    slots := fun o =>
      if o = 1 then [⟨"r", false, .scalar (some 2)⟩]
      else if o = 2 then [⟨"r", false, .scalar (some 3)⟩]
      else if o = 3 then [⟨"r", false, .scalar (some 1)⟩]
      else [] }

/-- The cycle's three graph nodes. -/
def cycleObjs : List ObjectInfo := [⟨1, "o1", "/S[0]"⟩, ⟨2, "o2", "/T[0]"⟩, ⟨3, "o3", "/T[1]"⟩]

/-- `A` with one scalar reference to a `B` target (class-filter scenario). -/
def scalarRefM : Model :=
  { emptyModel with
    className := fun o => if o = 1 then "A" else "B"
    slots := fun o => if o = 1 then [⟨"r", false, .scalar (some 2)⟩] else [] }

/-- `A` with one many-valued reference to a `B` target. -/
def manyRefM : Model :=
  { emptyModel with
    className := fun o => if o = 1 then "A" else "B"
    slots := fun o => if o = 1 then [⟨"r", false, .many [some 2]⟩] else [] }

/-- The two graph nodes of the class-filter scenario. -/
def abObjs : List ObjectInfo := [⟨1, "o1", "/A[0]"⟩, ⟨2, "o2", "/B[0]"⟩]

/-- Only node `1` given as input (node `2` outside the input graph). -/
def soloObj : List ObjectInfo := [⟨1, "o1", "/A[0]"⟩]

/-- A containment graph that is not a forest: `1` contains `2` twice through
one many-valued feature, and `2` contains `3`. -/
def dupContainM : Model :=
  { emptyModel with
    className := fun o => if o = 1 then "A" else if o = 2 then "B" else "C"
    slots := fun o =>
      if o = 1 then [⟨"kids", true, .many [some 2, some 2]⟩]
      else if o = 2 then [⟨"sub", true, .scalar (some 3)⟩]
      else [] }

/-- The composition scenario: classes `S`, `T`, `S`; `1` references `2`. -/
def compoM : Model :=
  { emptyModel with
    className := fun o => if o = 1 then "S" else if o = 2 then "T" else "S"
    slots := fun o => if o = 1 then [⟨"r", false, .scalar (some 2)⟩] else [] }

/-- The composition scenario's three nodes. -/
def compoObjs : List ObjectInfo := [⟨1, "o1", "/S[0]"⟩, ⟨2, "o2", "/T[0]"⟩, ⟨3, "o3", "/S[1]"⟩]

/-- `ast.parse("__import__('os')")`: a call of the dunder name. -/
def astImport : Expr := .call (.name "__import__") [.const (.str "os")] []

/-- `ast.parse("foo(1,2)")`: a call of an unsanctioned function. -/
def astFoo : Expr := .call (.name "foo") [.const (.int 1), .const (.int 2)] []

/-- `ast.parse("a == 1 and b in [1,2,3]")`. -/
def astGood : Expr := .boolOp .andOp
  [.compare (.name "a") [.eq] [.const (.int 1)],
   .compare (.name "b") [.inOp] [.listE [.const (.int 1), .const (.int 2), .const (.int 3)]]]

/-- A node of class `Bar` carrying a model attribute literally named `eclass`
with value `"Foo"` (legal in EMF: `eclass` is not the reflective `eClass`). -/
def shadowM : Model :=
  { emptyModel with
    className := fun _ => "Bar"
    attrs := fun _ => [⟨"eclass", false, some (.str "Foo")⟩] }

/-- A node of class `Bar` whose supertype chain contains `Foo`. -/
def kindM : Model :=
  { emptyModel with
    className := fun _ => "Bar"
    superTypes := fun _ => ["Foo"] }

/-- A containment tree: a shape witness that the containment relation below a
root object is a true tree. -/
inductive CTree where
  | node (root : Nat) (kids : List CTree)
deriving Repr

/-- The root object of a containment tree. -/
def CTree.root : CTree → Nat
  | .node r _ => r

/-- The child subtrees of a containment tree. -/
def CTree.kids : CTree → List CTree
  | .node _ ks => ks

mutual

/-- Pre-order listing of a containment tree's objects — the order `visit`
discovers them in. -/
def CTree.nodes : CTree → List Nat
  | .node r ks => r :: CTree.nodesF ks

/-- Pre-order listing of a forest's objects. -/
def CTree.nodesF : List CTree → List Nat
  | [] => []
  | t :: ts => CTree.nodes t ++ CTree.nodesF ts

end

mutual

/-- The tree agrees with the Model: at every node, `containChildren` yields
exactly the roots of the child subtrees, in order. -/
def CTree.agrees (m : Model) : CTree → Bool
  | .node r ks => (containChildren m r == ks.map CTree.root) && CTree.agreesF m ks

/-- `CTree.agrees` at every tree of a forest. -/
def CTree.agreesF (m : Model) : List CTree → Bool
  | [] => true
  | t :: ts => CTree.agrees m t && CTree.agreesF m ts

end

/-- An object is reachable from the roots through chains of containment
references. -/
def ReachesC (m : Model) (roots : List Nat) (x : Nat) : Prop :=
  ∃ r ∈ roots, Relation.ReflTransGen (fun a b => b ∈ containChildren m a) r x

/-- A two-tree containment forest: `1` contains `2` and `3` through the
many-valued `kids`, `2` contains `4` through the scalar `sub`, and `5` is a
second, childless root. -/
def forestM : Model :=
  { emptyModel with
    className := fun o => if o = 1 then "Root" else if o = 5 then "Extra" else "Leaf"
    slots := fun o =>
      if o = 1 then [⟨"kids", true, .many [some 2, some 3]⟩]
      else if o = 2 then [⟨"sub", true, .scalar (some 4)⟩]
      else [] }

/-- The forest witness for `forestM` with roots `[1, 5]`. -/
def forestTs : List CTree :=
  [.node 1 [.node 2 [.node 4 []], .node 3 []], .node 5 []]

/-! ## General lemmas: dictionary reads -/

theorem dictGet_append {κ α : Type} [BEq κ] (a b : List (κ × α)) (k : κ) :
    dictGet (a ++ b) k =
      match dictGet b k with
      | some v => some v
      | Option.none => dictGet a k := by
  unfold dictGet
  rw [List.reverse_append, List.find?_append]
  cases h : (b.reverse.find? fun p => p.1 == k) <;> simp [Option.orElse, h]

theorem dictGet_eq_none_of_forall {κ α : Type} [BEq κ] (l : List (κ × α)) (k : κ)
    (h : ∀ p ∈ l, (p.1 == k) = false) : dictGet l k = Option.none := by
  unfold dictGet
  rw [List.find?_eq_none.mpr]
  · rfl
  · intro p hp
    simpa using h p (List.mem_reverse.mp hp)

theorem dictGet_some_mem {κ α : Type} [BEq κ] (l : List (κ × α)) (k : κ) (v : α)
    (h : dictGet l k = some v) : ∃ p ∈ l, (p.1 == k) = true ∧ p.2 = v := by
  unfold dictGet at h
  cases hf : (l.reverse.find? fun p => p.1 == k) with
  | none => rw [hf] at h; cases h
  | some p =>
      rw [hf] at h
      refine ⟨p, List.mem_reverse.mp (List.mem_of_find?_eq_some hf), ?_, ?_⟩
      · simpa using List.find?_some hf
      · exact (by simpa using h.symm : v = p.2).symm

theorem dictGet_isSome_of_mem {κ α : Type} [BEq κ] [LawfulBEq κ] (l : List (κ × α))
    (p : κ × α) (hp : p ∈ l) : (dictGet l p.1).isSome := by
  unfold dictGet
  rw [Option.isSome_map']
  rw [List.find?_isSome]
  exact ⟨p, List.mem_reverse.mpr hp, by simp⟩

/-! ## General lemmas: fold invariants -/

theorem foldlPreserves {α β : Type} (f : β → α → β) (P : β → Prop)
    (hf : ∀ b a, P b → P (f b a)) : ∀ (l : List α) (b : β), P b → P (l.foldl f b) := by
  intro l
  induction l with
  | nil => intro b hP; simpa using hP
  | cons a t ih => intro b hP; rw [List.foldl_cons]; exact ih (f b a) (hf b a hP)

theorem foldlMPreserves {α β : Type} (f : β → α → Except String β) (P : β → Prop)
    (hf : ∀ b a b', P b → f b a = .ok b' → P b') :
    ∀ (l : List α) (b b' : β), P b → l.foldlM f b = .ok b' → P b' := by
  intro l
  induction l with
  | nil =>
      intro b b' hP h
      simp only [List.foldlM_nil, pure] at h
      cases h
      exact hP
  | cons a t ih =>
      intro b b' hP h
      rw [List.foldlM_cons] at h
      cases hf1 : f b a with
      | error e => rw [hf1] at h; simp [Bind.bind, Except.bind] at h
      | ok b1 =>
          rw [hf1] at h
          simp only [Bind.bind, Except.bind] at h
          exact ih b1 b' (hf b a b1 hP hf1) h

/-! ## C10: results are drawn from the input node list -/

theorem mem_of_dictGet_objmap (objects : List ObjectInfo) (o : Nat) (info : ObjectInfo)
    (h : dictGet (objects.map (fun i => (i.obj, i))) o = some info) :
    info ∈ objects ∧ info.obj = o := by
  rcases dictGet_some_mem _ _ _ h with ⟨p, hp, hk, hpv⟩
  rcases List.mem_map.mp hp with ⟨i, hi, hpe⟩
  subst hpe
  simp only at hpv
  subst hpv
  refine ⟨hi, ?_⟩
  simpa using hk

theorem _neighbor_expand_subset (m : Model) (objects : List ObjectInfo) (e : Expr)
    (hops : Int) (ic ir : Bool) (fuel : Nat) (l : List ObjectInfo) (mtr : Metrics)
    (h : _neighbor_expand m objects e hops ic ir fuel = .ok (l, mtr)) :
    ∀ info ∈ l, info ∈ objects := by
  unfold _neighbor_expand at h
  cases hbp : build_predicate e with
  | error msg => rw [hbp] at h; simp [Bind.bind, Except.bind] at h
  | ok p =>
      rw [hbp] at h
      simp only [Bind.bind, Except.bind] at h
      cases hss : selectStart m p Option.none objects with
      | error msg => rw [hss] at h; simp at h
      | ok seeds =>
          rw [hss] at h
          by_cases he : seeds.isEmpty
          · simp [he] at h
            intro info hi
            rw [h.1] at hi
            cases hi
          · simp [he] at h
            intro info hi
            rw [← h.1] at hi
            rcases List.mem_filterMap.mp hi with ⟨o, _, hg⟩
            exact (mem_of_dictGet_objmap objects o info hg).1

theorem _expand_from_subset (m : Model) (objects : List ObjectInfo) (e : Expr)
    (d : Option Int) (ec : Option (List String)) (fuel : Nat)
    (r : List ObjectInfo × Metrics × List (Nat × String) × List (Nat × String))
    (h : _expand_from m objects e d ec fuel = .ok r) :
    ∀ info ∈ r.1, info ∈ objects := by
  unfold _expand_from at h
  cases hbp : build_predicate e with
  | error msg => rw [hbp] at h; simp [Bind.bind, Except.bind] at h
  | ok p =>
      rw [hbp] at h
      simp only [Bind.bind, Except.bind] at h
      cases hss : selectStart m p ec objects with
      | error msg => rw [hss] at h; simp at h
      | ok start =>
          rw [hss] at h
          by_cases he : start.isEmpty
          · simp [he] at h
            intro info hi
            rw [← h] at hi
            simp at hi
          · simp [he] at h
            cases hel : expandLoop m ec d (objects.map fun i => (i.obj, i.objId)) fuel
                { seen := dedupFirst start, frontier := start,
                  pathMap := start.map fun o => (o, "/" ++ _node_label m o),
                  idPathMap := start.filterMap fun o =>
                    (dictGet (objects.map fun i => (i.obj, i.objId)) o).map
                      (fun fid => (o, "/" ++ _id_label m o fid)),
                  depth := 0, edgesTraversed := 0, loopsDetected := 0 } with
            | error msg => rw [hel] at h; simp at h
            | ok st =>
                rw [hel] at h
                simp only [Except.ok.injEq] at h
                intro info hi
                rw [← h] at hi
                simp only at hi
                rcases List.mem_filterMap.mp hi with ⟨o, _, hg⟩
                exact (mem_of_dictGet_objmap objects o info hg).1

/-- C10, counterexample to the claim as stated: `_expand_from` given only node
`1` as input, on a model where `1` references the outside object `2`, raises a
`KeyError` from the `id_map[target]` index instead of returning metrics that
count the outside object. -/
theorem c10_counterexample :
    _expand_from scalarRefM soloObj exprTrue (some (-1)) Option.none 10 =
      .error "KeyError: id_map" := rfl

/-- C10 (amended): both expansion stages only ever return nodes drawn from
their input node list; `_neighbor_expand` adds outside-reached objects to
`seen` and counts them in `nodes_seen`/`edges_traversed` while excluding them
from the returned list (shown concretely: `nodes_seen = 2`, one returned
node); `_expand_from` instead raises a `KeyError` when it reaches an object
outside the input list. -/
theorem c10_expansion_subset :
    (∀ (m : Model) (objects : List ObjectInfo) (e : Expr) (hops : Int) (ic ir : Bool)
       (fuel : Nat) (l : List ObjectInfo) (mtr : Metrics),
       _neighbor_expand m objects e hops ic ir fuel = .ok (l, mtr) →
       ∀ info ∈ l, info ∈ objects) ∧
    (∀ (m : Model) (objects : List ObjectInfo) (e : Expr) (d : Option Int)
       (ec : Option (List String)) (fuel : Nat)
       (r : List ObjectInfo × Metrics × List (Nat × String) × List (Nat × String)),
       _expand_from m objects e d ec fuel = .ok r →
       ∀ info ∈ r.1, info ∈ objects) ∧
    _neighbor_expand scalarRefM soloObj exprTrue 1 true true 10 =
      .ok ([⟨1, "o1", "/A[0]"⟩],
           [("seed_nodes", 1), ("nodes_seen", 2), ("edges_traversed", 1), ("max_hops", 1)]) := by
  refine ⟨?_, ?_, rfl⟩
  · intro m objects e hops ic ir fuel l mtr h
    exact _neighbor_expand_subset m objects e hops ic ir fuel l mtr h
  · intro m objects e d ec fuel r h
    exact _expand_from_subset m objects e d ec fuel r h

/-- C10 witness: the subset theorem applied to the concrete one-node run. -/
theorem c10_expansion_subset_witness :
    (⟨1, "o1", "/A[0]"⟩ : ObjectInfo) ∈ soloObj := by
  exact c10_expansion_subset.1 scalarRefM soloObj exprTrue 1 true true 10
    [⟨1, "o1", "/A[0]"⟩]
    [("seed_nodes", 1), ("nodes_seen", 2), ("edges_traversed", 1), ("max_hops", 1)]
    rfl ⟨1, "o1", "/A[0]"⟩ (by decide)

/-! ## C1: depth-bound semantics of `_expand_from` -/

theorem depthOk_none_eq_neg (d : Nat) : depthOk Option.none d = depthOk (some (-1)) d := by
  simp [depthOk]

theorem expandLoop_none_eq_neg (m : Model) (ec : Option (List String))
    (im : List (Nat × String)) :
    ∀ (fuel : Nat) (st : ExpSt),
      expandLoop m ec Option.none im fuel st = expandLoop m ec (some (-1)) im fuel st := by
  intro fuel
  induction fuel with
  | zero => intro st; rfl
  | succ n ih =>
      intro st
      show (if st.frontier.isEmpty || !depthOk Option.none st.depth then Except.ok st
            else match expandStep m ec im st with
                 | .error e => .error e
                 | .ok st' => expandLoop m ec Option.none im n st') = _
      rw [depthOk_none_eq_neg]
      by_cases hc : (st.frontier.isEmpty || !depthOk (some (-1)) st.depth)
      · simp only [expandLoop, hc, if_true]
      · simp only [expandLoop, hc, if_false]
        cases hs : expandStep m ec im st with
        | error e => rfl
        | ok st' => exact ih st'

theorem _expand_from_none_eq_neg (m : Model) (objects : List ObjectInfo) (e : Expr)
    (ec : Option (List String)) (fuel : Nat) :
    _expand_from m objects e Option.none ec fuel =
      _expand_from m objects e (some (-1)) ec fuel := by
  unfold _expand_from
  simp only [expandLoop_none_eq_neg]

/-- C1, counterexample to the claim as stated: on the linear chain
`A → B → C → D` with start `{A}`, `max_depth = None` expands unboundedly and
returns all four nodes, not the single-hop result `{A, B}` the claim assigns
to `None`. -/
theorem c1_counterexample :
    resNodes (_expand_from chainM chainObjs (exprEclassIs "A") Option.none Option.none 10) =
      [1, 2, 3, 4] ∧
    resNodes (_expand_from chainM chainObjs (exprEclassIs "A") Option.none Option.none 10) ≠
      [1, 2] := by
  exact ⟨rfl, by decide⟩

/-- C1 (amended): `_expand_from` interprets its depth bound as: `None` and any
negative value mean unbounded expansion (they produce identical results on
every input); `0` means start nodes only with no traversal; a positive `N`
stops after `N` hops.  On the chain `A → B → C → D` with start `{A}`: depth
`0` returns `{A}`, depth `1` returns `{A, B}`, and depths `-1`, `3` and `None`
all return `{A, B, C, D}`. -/
theorem c1_depth_semantics :
    (∀ (m : Model) (objects : List ObjectInfo) (e : Expr) (ec : Option (List String))
       (fuel : Nat),
       _expand_from m objects e Option.none ec fuel =
         _expand_from m objects e (some (-1)) ec fuel) ∧
    resNodes (_expand_from chainM chainObjs (exprEclassIs "A") (some 0) Option.none 10) = [1] ∧
    resNodes (_expand_from chainM chainObjs (exprEclassIs "A") (some 1) Option.none 10) = [1, 2] ∧
    resNodes (_expand_from chainM chainObjs (exprEclassIs "A") (some 3) Option.none 10) =
      [1, 2, 3, 4] ∧
    resNodes (_expand_from chainM chainObjs (exprEclassIs "A") (some (-1)) Option.none 10) =
      [1, 2, 3, 4] ∧
    resNodes (_expand_from chainM chainObjs (exprEclassIs "A") Option.none Option.none 10) =
      [1, 2, 3, 4] :=
  ⟨_expand_from_none_eq_neg, rfl, rfl, rfl, rfl, rfl⟩

/-! ## C4: first-visit-wins in `build_object_graph` -/

/-- Well-formedness of the traversal state: the `seen` dict has pairwise
distinct keys and each stored node wraps its key object. -/
def SeenWF (s : GState) : Prop :=
  (s.seen.map Prod.fst).Nodup ∧ ∀ p ∈ s.seen, p.2.obj = p.1

theorem ensure_wf (o : Nat) (path : String) (s : GState) (h : SeenWF s) :
    SeenWF (ensure o path s).2 := by
  unfold ensure
  cases hg : dictGet s.seen o with
  | some info => exact h
  | none =>
      refine ⟨?_, ?_⟩
      · simp only [List.map_append, List.map_cons, List.map_nil]
        rw [List.nodup_append]
        refine ⟨h.1, List.nodup_singleton o, ?_⟩
        intro x hx hx'
        simp only [List.mem_singleton] at hx'
        subst hx'
        rcases List.mem_map.mp hx with ⟨p, hp, hpk⟩
        have := dictGet_isSome_of_mem s.seen p hp
        rw [hpk, hg] at this
        cases this
      · intro p hp
        rcases List.mem_append.mp hp with h1 | h1
        · exact h.2 p h1
        · simp only [List.mem_singleton] at h1
          subst h1
          rfl

theorem visit_wf (m : Model) :
    ∀ (fuel o : Nat) (path : String) (s : GState), SeenWF s → SeenWF (visit m fuel o path s) := by
  intro fuel
  induction fuel with
  | zero => intro o path s h; exact h
  | succ n ih =>
      intro o path s h
      show SeenWF ((childSpecs m o).foldl _ (ensure o path s).2)
      refine foldlPreserves _ SeenWF ?_ _ _ (ensure_wf o path s h)
      intro acc spec hacc
      simp only
      refine ih _ _ _ ?_
      have h1 := ensure_wf spec.2.2
        ((ensure o path s).1.path ++ "/" ++ spec.1 ++ "[" ++ toString spec.2.1 ++ "]") acc hacc
      exact ⟨h1.1, h1.2⟩

theorem build_object_graph_wf (m : Model) (fuel : Nat) (roots : List Nat) :
    (((build_object_graph m fuel roots).1).map (fun i => i.obj)).Nodup := by
  unfold build_object_graph
  simp only
  have h : SeenWF ((roots.enum.foldl
      (fun s p => visit m fuel p.2 ("/" ++ m.className p.2 ++ "[" ++ toString p.1 ++ "]") s)
      ({ seen := [], edges := [] } : GState))) := by
    refine foldlPreserves _ SeenWF ?_ _ _ ⟨List.nodup_nil, by intro p hp; cases hp⟩
    intro s p hs
    exact visit_wf m fuel p.2 _ s hs
  have hmap : ((roots.enum.foldl
      (fun s p => visit m fuel p.2 ("/" ++ m.className p.2 ++ "[" ++ toString p.1 ++ "]") s)
      ({ seen := [], edges := [] } : GState)).seen.map (fun p => p.2.obj)) =
      ((roots.enum.foldl
      (fun s p => visit m fuel p.2 ("/" ++ m.className p.2 ++ "[" ++ toString p.1 ++ "]") s)
      ({ seen := [], edges := [] } : GState)).seen.map Prod.fst) := by
    refine List.map_congr_left ?_
    intro p hp
    exact h.2 p hp
  rw [List.map_map, Function.comp_def]
  rw [hmap]
  exact h.1

/-- C4, counterexample to the claim as stated: in a malformed containment
graph where object `1` contains object `2` twice through one many-valued
feature (and `2` contains `3`), the second encounter of the already-seen `2`
is re-visited and duplicate containment edges are recorded — the edge list
is `[1→2, 2→3, 1→2, 2→3]`, which has duplicates. -/
theorem c4_counterexample :
    ¬ (build_object_graph dupContainM 10 [1]).2.Nodup ∧
    (build_object_graph dupContainM 10 [1]).2 =
      [⟨"o1", "A", "kids", "o2", "B", true⟩, ⟨"o2", "B", "sub", "o3", "C", true⟩,
       ⟨"o1", "A", "kids", "o2", "B", true⟩, ⟨"o2", "B", "sub", "o3", "C", true⟩] := by
  exact ⟨by decide, rfl⟩

/-- C4 (amended): an already-seen Model Object keeps its first-discovered path
and session-local id and is never duplicated in the node list (the node list's
objects are pairwise distinct for every input), but the object IS re-visited
when encountered again through another containment slot and a duplicate
containment edge IS recorded, silently with no error; shown concretely on the
double-containment graph, whose node list keeps `o2`/`/A[0]/kids[0]` for the
twice-contained object while the edge list carries the duplicates. -/
theorem c4_first_visit_wins :
    (∀ (m : Model) (fuel : Nat) (roots : List Nat),
       (((build_object_graph m fuel roots).1).map (fun i => i.obj)).Nodup) ∧
    (build_object_graph dupContainM 10 [1]).1 =
      [⟨1, "o1", "/A[0]"⟩, ⟨2, "o2", "/A[0]/kids[0]"⟩, ⟨3, "o3", "/A[0]/kids[0]/sub[0]"⟩] ∧
    (build_object_graph dupContainM 10 [1]).2.length = 4 :=
  ⟨build_object_graph_wf, rfl, rfl⟩

/-! ## C3: `allowed_classes` filtering in `_expand_from` -/

theorem classBlocked_false_contains (l : List String) (hl : l ≠ []) (cls : String)
    (h : classBlocked (some l) cls = false) : l.contains cls = true := by
  unfold classBlocked at h
  rcases Bool.and_eq_false_iff.mp h with h1 | h1
  · exact absurd (List.isEmpty_iff.mp (by simpa using h1)) hl
  · simpa using h1

theorem dedupFirst_subset (s : List Nat) : ∀ x ∈ dedupFirst s, x ∈ s := by
  unfold dedupFirst
  suffices h : ∀ (t acc : List Nat), (∀ x ∈ acc, x ∈ s) → (∀ y ∈ t, y ∈ s) →
      ∀ x ∈ t.foldl (fun acc o => if acc.contains o then acc else acc ++ [o]) acc, x ∈ s by
    intro x hx
    exact h s [] (by intro x hx; cases hx) (fun y hy => hy) x hx
  intro t
  induction t with
  | nil => intro acc hacc _ x hx; exact hacc x hx
  | cons y t ih =>
      intro acc hacc ht x hx
      rw [List.foldl_cons] at hx
      by_cases hy : acc.contains y
      · rw [if_pos hy] at hx
        exact ih acc hacc (fun z hz => ht z (List.mem_cons_of_mem y hz)) x hx
      · rw [if_neg hy] at hx
        refine ih (acc ++ [y]) ?_ (fun z hz => ht z (List.mem_cons_of_mem y hz)) x hx
        intro z hz
        rcases List.mem_append.mp hz with h1 | h1
        · exact hacc z h1
        · simp only [List.mem_singleton] at h1
          subst h1
          exact ht z (List.mem_cons_self z t)

theorem selectStart_classAllowed (m : Model) (p : Model → Ctx → Except String Bool)
    (l : List String) (hl : l ≠ []) :
    ∀ (objects : List ObjectInfo) (start : List Nat),
      selectStart m p (some l) objects = .ok start →
      ∀ o ∈ start, l.contains (m.className o) = true := by
  intro objects
  induction objects with
  | nil =>
      intro start h o ho
      unfold selectStart at h
      cases h
      cases ho
  | cons info rest ih =>
      intro start h o ho
      unfold selectStart at h
      by_cases hc : (classRestricted (some l) && !((some l).getD []).contains (m.className info.obj))
      · rw [if_pos hc] at h
        exact ih start h o ho
      · rw [if_neg hc] at h
        simp only [Bind.bind, Except.bind] at h
        cases hb : p m (build_context m info.obj info.objId info.path) with
        | error msg => rw [hb] at h; cases h
        | ok b =>
            rw [hb] at h
            cases ht : selectStart m p (some l) rest with
            | error msg => rw [ht] at h; cases h
            | ok tail =>
                rw [ht] at h
                simp only [Except.ok.injEq] at h
                subst h
                have htail : ∀ o ∈ tail, l.contains (m.className o) = true := fun o ho =>
                  ih tail ht o ho
                by_cases hbb : b
                · subst hbb
                  rw [if_pos rfl] at ho
                  rcases List.mem_cons.mp ho with h1 | h1
                  · subst h1
                    have hcr : classRestricted (some l) = true := by
                      unfold classRestricted
                      simp [List.isEmpty_iff, hl]
                    rcases Bool.and_eq_false_iff.mp (Bool.of_not_eq_true hc) with h2 | h2
                    · rw [hcr] at h2; cases h2
                    · simpa using h2
                  · exact htail o h1
                · simp only [Bool.not_eq_true] at hbb
                  subst hbb
                  rw [if_neg (by simp)] at ho
                  exact htail o ho

/-- Invariant carried through the expansion loop: every seen object's class is
in the allowed set. -/
def ClassInv (m : Model) (l : List String) (st : ExpSt) : Prop :=
  ∀ x ∈ st.seen, l.contains (m.className x) = true

theorem stepTarget_classInv (m : Model) (l : List String) (hl : l ≠ [])
    (im : List (Nat × String)) (parent : Nat) (st st' : ExpSt) (t : Option Nat)
    (hmany : stepTargetMany m (some l) im parent st t = .ok st' ∨
             stepTargetScalar m (some l) im parent st t = .ok st')
    (hs : ClassInv m l st) : ClassInv m l st' := by
  have key : ∀ (target : Nat), classBlocked (some l) (m.className target) = false →
      ∀ x ∈ st.seen ++ [target], l.contains (m.className x) = true := by
    intro target hb x hx
    rcases List.mem_append.mp hx with h1 | h1
    · exact hs x h1
    · simp only [List.mem_singleton] at h1
      subst h1
      exact classBlocked_false_contains l hl _ hb
  rcases hmany with h | h
  · unfold stepTargetMany at h
    cases t with
    | none => cases h; exact hs
    | some target =>
        simp only at h
        by_cases hb : classBlocked (some l) (m.className target)
        · rw [if_pos hb] at h; cases h; exact hs
        · rw [if_neg hb] at h
          by_cases hc : st.seen.contains target
          · rw [if_pos hc] at h; cases h; exact hs
          · rw [if_neg hc] at h
            simp only [Bind.bind, Except.bind] at h
            cases hp : dictGet st.pathMap parent with
            | none => rw [hp] at h; cases h
            | some pp =>
                rw [hp] at h
                cases hq : dictGet im target with
                | none => rw [hq] at h; cases h
                | some fid =>
                    rw [hq] at h
                    simp only [Except.ok.injEq] at h
                    subst h
                    exact key target (Bool.of_not_eq_true hb)
  · unfold stepTargetScalar at h
    cases t with
    | none => cases h; exact hs
    | some target =>
        simp only at h
        by_cases hb : classBlocked (some l) (m.className target)
        · rw [if_pos hb] at h; cases h; exact hs
        · rw [if_neg hb] at h
          by_cases hc : st.seen.contains target
          · rw [if_pos hc] at h; cases h; exact hs
          · rw [if_neg hc] at h
            simp only [Bind.bind, Except.bind] at h
            cases hp : dictGet st.pathMap parent with
            | none => rw [hp] at h; cases h
            | some pp =>
                rw [hp] at h
                cases hq : dictGet im target with
                | none => rw [hq] at h; cases h
                | some fid =>
                    rw [hq] at h
                    simp only [Except.ok.injEq] at h
                    subst h
                    exact key target (Bool.of_not_eq_true hb)

theorem stepObj_classInv (m : Model) (l : List String) (hl : l ≠ [])
    (im : List (Nat × String)) (st st' : ExpSt) (o : Nat)
    (h : stepObj m (some l) im st o = .ok st') (hs : ClassInv m l st) : ClassInv m l st' := by
  unfold stepObj at h
  refine foldlMPreserves _ (ClassInv m l) ?_ _ _ _ hs h
  intro b slot b' hb hstep
  cases hv : slot.val with
  | many items =>
      rw [hv] at hstep
      simp only at hstep
      refine foldlMPreserves _ (ClassInv m l) ?_ _ _ _ hb hstep
      intro c t c' hc hct
      exact stepTarget_classInv m l hl im o c c' t (Or.inl hct) hc
  | scalar v =>
      rw [hv] at hstep
      simp only at hstep
      exact stepTarget_classInv m l hl im o b b' v (Or.inr hstep) hb

theorem expandStep_classInv (m : Model) (l : List String) (hl : l ≠ [])
    (im : List (Nat × String)) (st st' : ExpSt)
    (h : expandStep m (some l) im st = .ok st') (hs : ClassInv m l st) : ClassInv m l st' := by
  unfold expandStep at h
  simp only [Bind.bind, Except.bind] at h
  cases hf : st.frontier.foldlM (stepObj m (some l) im) { st with frontier := [] } with
  | error e => rw [hf] at h; cases h
  | ok st1 =>
      rw [hf] at h
      simp only [Except.ok.injEq] at h
      subst h
      have h1 : ClassInv m l st1 := by
        refine foldlMPreserves _ (ClassInv m l) ?_ st.frontier
          ({ st with frontier := [] }) st1 (fun y hy => hs y hy) hf
        intro b a b' hb hba
        exact stepObj_classInv m l hl im b b' a hba hb
      intro x hx
      exact h1 x hx

theorem expandLoop_classInv (m : Model) (l : List String) (hl : l ≠ [])
    (ed : Option Int) (im : List (Nat × String)) :
    ∀ (fuel : Nat) (st st' : ExpSt),
      expandLoop m (some l) ed im fuel st = .ok st' →
      ClassInv m l st → ClassInv m l st' := by
  intro fuel
  induction fuel with
  | zero => intro st st' h hs; cases h; exact hs
  | succ n ih =>
      intro st st' h hs
      unfold expandLoop at h
      by_cases hc : (st.frontier.isEmpty || !depthOk ed st.depth)
      · rw [if_pos hc] at h; cases h; exact hs
      · rw [if_neg hc] at h
        cases hstep : expandStep m (some l) im st with
        | error e => rw [hstep] at h; cases h
        | ok st1 =>
            rw [hstep] at h
            exact ih st1 st' h (expandStep_classInv m l hl im st st1 hstep hs)

theorem _expand_from_classAllowed (m : Model) (objects : List ObjectInfo) (e : Expr)
    (d : Option Int) (l : List String) (fuel : Nat)
    (r : List ObjectInfo × Metrics × List (Nat × String) × List (Nat × String))
    (hl : l ≠ []) (h : _expand_from m objects e d (some l) fuel = .ok r) :
    ∀ info ∈ r.1, l.contains (m.className info.obj) = true := by
  unfold _expand_from at h
  cases hbp : build_predicate e with
  | error msg => rw [hbp] at h; simp [Bind.bind, Except.bind] at h
  | ok p =>
      rw [hbp] at h
      simp only [Bind.bind, Except.bind] at h
      cases hss : selectStart m p (some l) objects with
      | error msg => rw [hss] at h; simp at h
      | ok start =>
          rw [hss] at h
          have hstart := selectStart_classAllowed m p l hl objects start hss
          by_cases he : start.isEmpty
          · simp [he] at h
            intro info hi
            rw [← h] at hi
            simp at hi
          · simp [he] at h
            cases hel : expandLoop m (some l) d (objects.map fun i => (i.obj, i.objId)) fuel
                { seen := dedupFirst start, frontier := start,
                  pathMap := start.map fun o => (o, "/" ++ _node_label m o),
                  idPathMap := start.filterMap fun o =>
                    (dictGet (objects.map fun i => (i.obj, i.objId)) o).map
                      (fun fid => (o, "/" ++ _id_label m o fid)),
                  depth := 0, edgesTraversed := 0, loopsDetected := 0 } with
            | error msg => rw [hel] at h; simp at h
            | ok st =>
                rw [hel] at h
                simp only [Except.ok.injEq] at h
                have hinv : ClassInv m l st := by
                  refine expandLoop_classInv m l hl d _ fuel _ st hel ?_
                  intro x hx
                  exact hstart x (dedupFirst_subset start x hx)
                intro info hi
                rw [← h] at hi
                simp only at hi
                rcases List.mem_filterMap.mp hi with ⟨o, ho, hg⟩
                have := (mem_of_dictGet_objmap objects o info hg).2
                rw [this]
                exact hinv o ho

/-- C3, counterexample to the claim as stated: for a *scalar* reference slot
whose target's class is filtered out, the class check fires before the edge
counter, so `edges_traversed` is `0` — the claim predicts the traversed edge
is still counted (`1`). -/
theorem c3_counterexample :
    resMetric (_expand_from scalarRefM abObjs exprTrue (some (-1)) (some ["A"]) 10)
      "edges_traversed" = some 0 ∧
    resMetric (_expand_from scalarRefM abObjs exprTrue (some (-1)) (some ["A"]) 10)
      "edges_traversed" ≠ some 1 := by
  exact ⟨rfl, by decide⟩

/-- C3 (amended): with a non-empty `allowed_classes` set, a target whose class
is not allowed is never added to the frontier or explored — every node
`_expand_from` returns has an allowed class — and the traversed edge is still
counted toward `edges_traversed` for *many-valued* slots only; for scalar
slots the class filter fires before the counter, so the edge is not counted.
Shown concretely: the blocked many-valued edge counts `1`, the blocked scalar
edge counts `0`, and both runs return only the start node. -/
theorem c3_class_filter :
    (∀ (m : Model) (objects : List ObjectInfo) (e : Expr) (d : Option Int)
       (l : List String) (fuel : Nat)
       (r : List ObjectInfo × Metrics × List (Nat × String) × List (Nat × String)),
       l ≠ [] → _expand_from m objects e d (some l) fuel = .ok r →
       ∀ info ∈ r.1, l.contains (m.className info.obj) = true) ∧
    resMetric (_expand_from manyRefM abObjs exprTrue (some (-1)) (some ["A"]) 10)
      "edges_traversed" = some 1 ∧
    resNodes (_expand_from manyRefM abObjs exprTrue (some (-1)) (some ["A"]) 10) = [1] ∧
    resMetric (_expand_from scalarRefM abObjs exprTrue (some (-1)) (some ["A"]) 10)
      "edges_traversed" = some 0 ∧
    resNodes (_expand_from scalarRefM abObjs exprTrue (some (-1)) (some ["A"]) 10) = [1] := by
  refine ⟨?_, rfl, rfl, rfl, rfl⟩
  intro m objects e d l fuel r hl h
  exact _expand_from_classAllowed m objects e d l fuel r hl h

/-- C3 witness: the class-invariant applied to the concrete many-valued run. -/
theorem c3_class_filter_witness :
    (["A"] : List String).contains (manyRefM.className 1) = true := by
  refine c3_class_filter.1 manyRefM abObjs exprTrue (some (-1)) ["A"] 10
    ⟨[⟨1, "o1", "/A[0]"⟩],
     [("start_nodes", 1), ("nodes_seen", 1), ("edges_traversed", 1),
      ("loops_detected", 0), ("max_depth", 1)],
     [(1, "/")], [(1, "/o1")]⟩ (by decide) (by rfl) ⟨1, "o1", "/A[0]"⟩ (by decide)

/-! ## C7: predicate semantics of `eclass == 'Foo'` and `is_kind_of('Foo')` -/

theorem build_context_reserved (m : Model) (o : Nat) (objId path : String)
    (k : String) (hk : ∀ a ∈ m.attrs o, (a.name == k) = false) :
    dictGet (build_context m o objId path) k =
      dictGet [ ("eclass", PyVal.val (.str (m.className o)))
              , ("nsuri", PyVal.val (match m.nsUri o with | some s => .str s | Option.none => .none))
              , ("id", PyVal.val (.str (preferredStr (m.internalId o) objId)))
              , ("local_id", PyVal.val (.str objId))
              , ("ID", PyVal.val (.str (preferredStr (m.internalId o) objId)))
              , ("path", PyVal.val (.str path))
              , ("attrs", PyVal.val (.dict ((m.attrs o).map (fun a => (a.name, attrValue a)))))
              , ("is_class", PyVal.fnIsClass o)
              , ("is_kind_of", PyVal.fnIsKindOf o) ] k := by
  unfold build_context
  rw [dictGet_append]
  rw [dictGet_eq_none_of_forall]
  intro p hp
  rcases List.mem_map.mp hp with ⟨q, hq, hqe⟩
  rcases List.mem_map.mp hq with ⟨a, ha, hae⟩
  subst hqe; subst hae
  exact hk a ha

theorem c7_eclass_eval (m : Model) (o : Nat) (objId path : String)
    (h1 : ∀ a ∈ m.attrs o, (a.name == "eclass") = false) :
    runPredicate (exprEclassIs "Foo") m o objId path = .ok (m.className o == "Foo") := by
  unfold runPredicate
  have hv : build_predicate (exprEclassIs "Foo") =
      .ok (fun m ctx => (evalExpr m ctx (exprEclassIs "Foo")).map truthy) := by rfl
  rw [hv]
  have hget : dictGet (build_context m o objId path) "eclass" =
      some (.val (.str (m.className o))) := by
    rw [build_context_reserved m o objId path "eclass" h1]
    simp [dictGet]
  show (evalExpr m (build_context m o objId path) (exprEclassIs "Foo")).map truthy = _
  unfold exprEclassIs
  simp only [evalExpr, hget, Bind.bind, Except.bind]
  simp only [evalCmpChain, evalExpr, Bind.bind, Except.bind, applyCmp, pyvalEq, pyEq]
  by_cases hb : m.className o == "Foo"
  · simp [hb, truthy, Except.map]
  · simp only [Bool.not_eq_true] at hb
    simp [hb, truthy, Except.map]

theorem c7_kindof_eval (m : Model) (o : Nat) (objId path : String)
    (h2 : ∀ a ∈ m.attrs o, (a.name == "is_kind_of") = false) :
    runPredicate (.call (.name "is_kind_of") [.const (.str "Foo")] []) m o objId path =
      .ok (m.className o == "Foo" || (m.superTypes o).any (fun s => s == "Foo")) := by
  unfold runPredicate
  have hv : build_predicate (.call (.name "is_kind_of") [.const (.str "Foo")] []) =
      .ok (fun m ctx =>
        (evalExpr m ctx (.call (.name "is_kind_of") [.const (.str "Foo")] [])).map truthy) := by
    rfl
  rw [hv]
  have hget : dictGet (build_context m o objId path) "is_kind_of" = some (.fnIsKindOf o) := by
    rw [build_context_reserved m o objId path _ h2]
    simp [dictGet]
  show (evalExpr m (build_context m o objId path) _).map truthy = _
  simp only [evalExpr, hget, Bind.bind, Except.bind, evalArgs, evalExpr]
  simp [pyvalEq, pyEq, truthy, Except.map]

/-- C7, counterexample to the claim as stated: a node of class `Bar` carrying
a model attribute literally named `eclass` with value `"Foo"` satisfies the
predicate built from `eclass == 'Foo'`, because `ctx.update(attrs)` lets
attribute bindings shadow the reserved `eclass` key — so the predicate does
not match exactly the nodes whose class name is `Foo`. -/
theorem c7_counterexample :
    runPredicate (exprEclassIs "Foo") shadowM 1 "o1" "/Bar[0]" = .ok true ∧
    shadowM.className 1 ≠ "Foo" := by
  exact ⟨by rfl, by decide⟩

/-- C7 (amended): on nodes with no model attribute named `eclass`, the
predicate built from `eclass == 'Foo'` evaluates to true exactly on the nodes
whose class name is `Foo`; on nodes with no attribute named `is_kind_of`, the
predicate built from `is_kind_of('Foo')` evaluates to true exactly on the
nodes whose class name is `Foo` or whose supertype chain contains a type named
`Foo`.  (Attributes shadow the reserved context keys, hence the provisos.) -/
theorem c7_predicate_semantics (m : Model) (o : Nat) (objId path : String)
    (h1 : ∀ a ∈ m.attrs o, (a.name == "eclass") = false)
    (h2 : ∀ a ∈ m.attrs o, (a.name == "is_kind_of") = false) :
    runPredicate (exprEclassIs "Foo") m o objId path = .ok (m.className o == "Foo") ∧
    runPredicate (.call (.name "is_kind_of") [.const (.str "Foo")] []) m o objId path =
      .ok (m.className o == "Foo" || (m.superTypes o).any (fun s => s == "Foo")) :=
  ⟨c7_eclass_eval m o objId path h1, c7_kindof_eval m o objId path h2⟩

/-- C7 witness: the amended semantics at a concrete node of class `Bar` with
supertype `Foo` and no attributes. -/
theorem c7_predicate_semantics_witness :
    runPredicate (exprEclassIs "Foo") kindM 1 "o1" "/Bar[0]" = .ok false ∧
    runPredicate (.call (.name "is_kind_of") [.const (.str "Foo")] []) kindM 1 "o1" "/Bar[0]" =
      .ok true := by
  have h := c7_predicate_semantics kindM 1 "o1" "/Bar[0]"
    (by intro a ha; cases ha) (by intro a ha; cases ha)
  exact ⟨h.1.trans (by rfl), h.2.trans (by rfl)⟩

/-! ## C6: compile-time validation of the expression grammar -/

theorem validateSeq_ok_iff (a b : Except String Unit) :
    validateSeq a b = .ok () ↔ a = .ok () ∧ b = .ok () := by
  cases a with
  | ok u => cases u; simp [validateSeq]
  | error e => simp [validateSeq]

mutual

theorem validate_ok_iff : ∀ e : Expr,
    _validate_expr e = .ok () ↔ ∀ n ∈ Expr.walkList e, nodeOk n = true := by
  intro e
  by_cases h : nodeOk e
  · cases e with
    | name id =>
        unfold _validate_expr
        simp [h, Expr.walkList]
    | const v =>
        unfold _validate_expr
        simp [h, Expr.walkList]
    | boolOp op values =>
        unfold _validate_expr
        simp only [h, if_true, Expr.walkList, List.mem_cons, forall_eq_or_imp]
        rw [validateL_ok_iff values]
        simp [h]
    | unaryOp op operand =>
        unfold _validate_expr
        simp only [h, if_true, Expr.walkList, List.mem_cons, forall_eq_or_imp]
        rw [validate_ok_iff operand]
        simp [h]
    | compare left ops comparators =>
        unfold _validate_expr
        simp only [h, if_true, Expr.walkList, List.mem_cons, List.mem_append, forall_eq_or_imp]
        rw [validateSeq_ok_iff, validate_ok_iff left, validateL_ok_iff comparators]
        constructor
        · rintro ⟨ha, hb⟩
          refine ⟨trivial, ?_⟩
          intro n hn
          rcases hn with hn | hn
          · exact ha n hn
          · exact hb n hn
        · rintro ⟨-, hall⟩
          exact ⟨fun n hn => hall n (Or.inl hn), fun n hn => hall n (Or.inr hn)⟩
    | listE elts =>
        unfold _validate_expr
        simp only [h, if_true, Expr.walkList, List.mem_cons, forall_eq_or_imp]
        rw [validateL_ok_iff elts]
        simp [h]
    | tupleE elts =>
        unfold _validate_expr
        simp only [h, if_true, Expr.walkList, List.mem_cons, forall_eq_or_imp]
        rw [validateL_ok_iff elts]
        simp [h]
    | setE elts =>
        unfold _validate_expr
        simp only [h, if_true, Expr.walkList, List.mem_cons, forall_eq_or_imp]
        rw [validateL_ok_iff elts]
        simp [h]
    | dictE entries =>
        unfold _validate_expr
        simp only [h, if_true, Expr.walkList, List.mem_cons, forall_eq_or_imp]
        rw [validateP_ok_iff entries]
        simp [h]
    | subscript v index =>
        unfold _validate_expr
        simp only [h, if_true, Expr.walkList, List.mem_cons, List.mem_append, forall_eq_or_imp]
        rw [validateSeq_ok_iff, validate_ok_iff v, validate_ok_iff index]
        constructor
        · rintro ⟨ha, hb⟩
          refine ⟨trivial, ?_⟩
          intro n hn
          rcases hn with hn | hn
          · exact ha n hn
          · exact hb n hn
        · rintro ⟨-, hall⟩
          exact ⟨fun n hn => hall n (Or.inl hn), fun n hn => hall n (Or.inr hn)⟩
    | call func args keywords =>
        unfold _validate_expr
        simp only [h, if_true, Expr.walkList, List.mem_cons, List.mem_append, forall_eq_or_imp]
        rw [validateSeq_ok_iff, validateSeq_ok_iff, validate_ok_iff func,
          validateL_ok_iff args, validateK_ok_iff keywords]
        constructor
        · rintro ⟨ha, hb, hc⟩
          refine ⟨trivial, ?_⟩
          intro n hn
          rcases hn with (hn | hn) | hn
          · exact ha n hn
          · exact hb n hn
          · exact hc n hn
        · rintro ⟨-, hall⟩
          exact ⟨fun n hn => hall n (Or.inl (Or.inl hn)),
                 fun n hn => hall n (Or.inl (Or.inr hn)),
                 fun n hn => hall n (Or.inr hn)⟩
    | other kind children =>
        unfold _validate_expr
        simp only [h, if_true, Expr.walkList, List.mem_cons, forall_eq_or_imp]
        rw [validateL_ok_iff children]
        simp [h]
  · constructor
    · intro hval
      exfalso
      unfold _validate_expr at hval
      rw [if_neg h] at hval
      cases hval
    · intro hall
      exfalso
      exact h (hall e (by cases e <;> exact List.mem_cons_self _ _))

theorem validateL_ok_iff : ∀ l : List Expr,
    validateL l = .ok () ↔ ∀ n ∈ Expr.walkL l, nodeOk n = true := by
  intro l
  cases l with
  | nil => simp [validateL, Expr.walkL]
  | cons e rest =>
      unfold validateL
      rw [validateSeq_ok_iff, validate_ok_iff e, validateL_ok_iff rest]
      simp only [Expr.walkL, List.mem_append]
      constructor
      · rintro ⟨ha, hb⟩ n hn
        rcases hn with hn | hn
        · exact ha n hn
        · exact hb n hn
      · intro hall
        exact ⟨fun n hn => hall n (Or.inl hn), fun n hn => hall n (Or.inr hn)⟩

theorem validateP_ok_iff : ∀ l : List (Expr × Expr),
    validateP l = .ok () ↔ ∀ n ∈ Expr.walkP l, nodeOk n = true := by
  intro l
  cases l with
  | nil => simp [validateP, Expr.walkP]
  | cons kv rest =>
      cases kv with
      | mk k v =>
          unfold validateP
          rw [validateSeq_ok_iff, validateSeq_ok_iff, validate_ok_iff k, validate_ok_iff v,
            validateP_ok_iff rest]
          simp only [Expr.walkP, List.mem_append]
          constructor
          · rintro ⟨ha, hb, hc⟩ n hn
            rcases hn with (hn | hn) | hn
            · exact ha n hn
            · exact hb n hn
            · exact hc n hn
          · intro hall
            exact ⟨fun n hn => hall n (Or.inl (Or.inl hn)),
                   fun n hn => hall n (Or.inl (Or.inr hn)),
                   fun n hn => hall n (Or.inr hn)⟩

theorem validateK_ok_iff : ∀ l : List (Option String × Expr),
    validateK l = .ok () ↔ ∀ n ∈ Expr.walkK l, nodeOk n = true := by
  intro l
  cases l with
  | nil => simp [validateK, Expr.walkK]
  | cons kv rest =>
      cases kv with
      | mk k v =>
          unfold validateK
          rw [validateSeq_ok_iff, validate_ok_iff v, validateK_ok_iff rest]
          simp only [Expr.walkK, List.mem_append]
          constructor
          · rintro ⟨ha, hb⟩ n hn
            rcases hn with hn | hn
            · exact ha n hn
            · exact hb n hn
          · intro hall
            exact ⟨fun n hn => hall n (Or.inl hn), fun n hn => hall n (Or.inr hn)⟩

end

/-- C6: `build_predicate` raises a `ValueError`-class error at compile time
exactly when some walked node fails the per-node admissibility check — i.e.
whenever the expression uses a node kind outside the allowed grammar subset,
calls anything but `is_class`/`is_kind_of` (or calls through a non-name), uses
keyword arguments, or references an identifier beginning with `__`; in
particular `__import__('os')` and `foo(1,2)` raise, while the well-formed
boolean expression `a == 1 and b in [1,2,3]` compiles with no error. -/
theorem c6_predicate_compile_errors :
    (∀ e : Expr, (∃ n ∈ Expr.walkList e, nodeOk n = false) →
       ∃ msg, _validate_expr e = .error msg) ∧
    (∀ e : Expr, (∀ n ∈ Expr.walkList e, nodeOk n = true) → _validate_expr e = .ok ()) ∧
    _validate_expr astImport = .error "Unsupported function: __import__" ∧
    _validate_expr astFoo = .error "Unsupported function: foo" ∧
    _validate_expr astGood = .ok () := by
  refine ⟨?_, ?_, rfl, rfl, rfl⟩
  · rintro e ⟨n, hn, hbad⟩
    cases hv : _validate_expr e with
    | error msg => exact ⟨msg, rfl⟩
    | ok u =>
        cases u
        have := (validate_ok_iff e).mp hv n hn
        rw [hbad] at this
        cases this
  · intro e h
    exact (validate_ok_iff e).mpr h

/-- C6 witness: a `BinOp` node (outside the allowed subset) makes validation
raise. -/
theorem c6_predicate_compile_errors_witness :
    ∃ msg, _validate_expr (.other "BinOp" [.name "a", .name "b"]) = .error msg :=
  c6_predicate_compile_errors.1 (.other "BinOp" [.name "a", .name "b"])
    ⟨.other "BinOp" [.name "a", .name "b"], by simp [Expr.walkList], rfl⟩

/-! ## C9: expression compile errors abort the call before any output -/

theorem build_predicate_ok_validate (e : Expr) (p : Model → Ctx → Except String Bool)
    (h : build_predicate e = .ok p) : _validate_expr e = .ok () := by
  unfold build_predicate at h
  cases hv : _validate_expr e with
  | error msg => rw [hv] at h; cases h
  | ok u => cases u; rfl

theorem _neighbor_expand_ok_validate (m : Model) (objects : List ObjectInfo) (e : Expr)
    (hops : Int) (ic ir : Bool) (fuel : Nat) (r : List ObjectInfo × Metrics)
    (h : _neighbor_expand m objects e hops ic ir fuel = .ok r) :
    _validate_expr e = .ok () := by
  unfold _neighbor_expand at h
  cases hbp : build_predicate e with
  | error msg => rw [hbp] at h; simp [Bind.bind, Except.bind] at h
  | ok p => exact build_predicate_ok_validate e p hbp

theorem _expand_from_ok_validate (m : Model) (objects : List ObjectInfo) (e : Expr)
    (d : Option Int) (ec : Option (List String)) (fuel : Nat)
    (r : List ObjectInfo × Metrics × List (Nat × String) × List (Nat × String))
    (h : _expand_from m objects e d ec fuel = .ok r) :
    _validate_expr e = .ok () := by
  unfold _expand_from at h
  cases hbp : build_predicate e with
  | error msg => rw [hbp] at h; simp [Bind.bind, Except.bind] at h
  | ok p => exact build_predicate_ok_validate e p hbp


theorem _apply_filter_ok_validate (m : Model) (objects : List ObjectInfo)
    (fe ee : Option Expr) (ed : Option Int) (ec : Option (List String))
    (ne : Option Expr) (nh : Option Int) (fuel : Nat)
    (r : List ObjectInfo × Option Metrics ×
      Option (List (Nat × String)) × Option (List (Nat × String)))
    (h : _apply_filter m objects fe ee ed ec ne nh fuel = .ok r) :
    (∀ e hops, ne = some e → nh = some hops → _validate_expr e = .ok ()) ∧
    (∀ e, ee = some e → _validate_expr e = .ok ()) ∧
    (∀ e, fe = some e → _validate_expr e = .ok ()) := by
  unfold _apply_filter at h
  simp only [Bind.bind, Except.bind, pure, Except.pure] at h
  cases ne with
  | none =>
      simp only [] at h
      refine ⟨(by intro e hops he; cases he), ?_, ?_⟩
      · intro e he
        subst he
        simp only [] at h
        cases hx : _expand_from m objects e ed ec fuel with
        | error msg => rw [hx] at h; simp at h
        | ok r2 => exact _expand_from_ok_validate m objects e ed ec fuel r2 hx
      · intro e he
        subst he
        simp only [] at h
        cases ee with
        | none =>
            simp only [] at h
            cases hbp : build_predicate e with
            | error msg => rw [hbp] at h; simp at h
            | ok p => exact build_predicate_ok_validate e p hbp
        | some eexpr =>
            simp only [] at h
            cases hx : _expand_from m objects eexpr ed ec fuel with
            | error msg => rw [hx] at h; simp at h
            | ok r2 =>
                rw [hx] at h
                simp only [] at h
                cases hbp : build_predicate e with
                | error msg => rw [hbp] at h; simp at h
                | ok p => exact build_predicate_ok_validate e p hbp
  | some nexpr =>
      cases nh with
      | none =>
          simp only [] at h
          refine ⟨(by intro e hops he hh; cases hh), ?_, ?_⟩
          · intro e he
            subst he
            simp only [] at h
            cases hx : _expand_from m objects e ed ec fuel with
            | error msg => rw [hx] at h; simp at h
            | ok r2 => exact _expand_from_ok_validate m objects e ed ec fuel r2 hx
          · intro e he
            subst he
            simp only [] at h
            cases ee with
            | none =>
                simp only [] at h
                cases hbp : build_predicate e with
                | error msg => rw [hbp] at h; simp at h
                | ok p => exact build_predicate_ok_validate e p hbp
            | some eexpr =>
                simp only [] at h
                cases hx : _expand_from m objects eexpr ed ec fuel with
                | error msg => rw [hx] at h; simp at h
                | ok r2 =>
                    rw [hx] at h
                    simp only [] at h
                    cases hbp : build_predicate e with
                    | error msg => rw [hbp] at h; simp at h
                    | ok p => exact build_predicate_ok_validate e p hbp
      | some hops =>
          simp only [] at h
          cases hn : _neighbor_expand m objects nexpr hops true true fuel with
          | error msg => rw [hn] at h; simp at h
          | ok r1 =>
              rw [hn] at h
              simp only [] at h
              refine ⟨?_, ?_, ?_⟩
              · intro e hops' he hh
                cases he; cases hh
                exact _neighbor_expand_ok_validate m objects nexpr hops true true fuel r1 hn
              · intro e he
                subst he
                simp only [] at h
                cases hx : _expand_from m r1.1 e ed ec fuel with
                | error msg => rw [hx] at h; simp at h
                | ok r2 => exact _expand_from_ok_validate m r1.1 e ed ec fuel r2 hx
              · intro e he
                subst he
                simp only [] at h
                cases ee with
                | none =>
                    simp only [] at h
                    cases hbp : build_predicate e with
                    | error msg => rw [hbp] at h; simp at h
                    | ok p => exact build_predicate_ok_validate e p hbp
                | some eexpr =>
                    simp only [] at h
                    cases hx : _expand_from m r1.1 eexpr ed ec fuel with
                    | error msg => rw [hx] at h; simp at h
                    | ok r2 =>
                        rw [hx] at h
                        simp only [] at h
                        cases hbp : build_predicate e with
                        | error msg => rw [hbp] at h; simp at h
                        | ok p => exact build_predicate_ok_validate e p hbp

/-- C9: if compiling any activated filter, seed (neighbor), or expand
expression fails validation, the whole `export_json` call returns the
expression error and the write trace is unchanged — the output file is never
opened, because every predicate compilation happens inside `_apply_filter`,
which runs strictly before the write step. -/
theorem c9_no_partial_output (m : Model) (roots : List Nat) (output_path : String)
    (fe ee : Option Expr) (ed : Option Int) (ec : Option (List String))
    (ne : Option Expr) (nh : Option Int) (fuel : Nat) (w0 : List String)
    (hbad : (∃ e hops msg, ne = some e ∧ nh = some hops ∧ _validate_expr e = .error msg) ∨
            (∃ e msg, ee = some e ∧ _validate_expr e = .error msg) ∨
            (∃ e msg, fe = some e ∧ _validate_expr e = .error msg)) :
    (∃ msg, (export_json m roots output_path fe ee ed ec ne nh fuel w0).1 = .error msg) ∧
    (export_json m roots output_path fe ee ed ec ne nh fuel w0).2 = w0 := by
  cases haf : _apply_filter m (build_object_graph m fuel roots).1 fe ee ed ec ne nh fuel with
  | ok r =>
      exfalso
      have hv := _apply_filter_ok_validate m _ fe ee ed ec ne nh fuel r haf
      rcases hbad with ⟨e, hops, msg, h1, h2, hvy⟩ | ⟨e, msg, h1, hvy⟩ | ⟨e, msg, h1, hvy⟩
      · rw [hv.1 e hops h1 h2] at hvy; cases hvy
      · rw [hv.2.1 e h1] at hvy; cases hvy
      · rw [hv.2.2 e h1] at hvy; cases hvy
  | error msg =>
      constructor
      · refine ⟨msg, ?_⟩
        unfold export_json
        simp only [haf]
      · unfold export_json
        simp only [haf]

/-- C9 witness: a bad filter expression aborts the concrete export with no
file written. -/
theorem c9_no_partial_output_witness :
    (∃ msg, (export_json compoM [1] "out.json" (some astFoo) Option.none Option.none Option.none
        Option.none Option.none 10 []).1 = .error msg) ∧
    (export_json compoM [1] "out.json" (some astFoo) Option.none Option.none Option.none
        Option.none Option.none 10 []).2 = [] := by
  exact c9_no_partial_output compoM [1] "out.json" (some astFoo) Option.none Option.none
    Option.none Option.none Option.none 10 []
    (Or.inr (Or.inr ⟨astFoo, "Unsupported function: foo", rfl, by rfl⟩))

/-! ## C2: merging of neighborhood and reachability metrics -/

theorem dictGet_append_right_of_isSome {κ α : Type} [BEq κ] (a b : List (κ × α)) (k : κ)
    (h : (dictGet b k).isSome) : dictGet (a ++ b) k = dictGet b k := by
  rw [dictGet_append]
  cases hb : dictGet b k with
  | some v => rfl
  | none => rw [hb] at h; cases h

theorem dictGet_append_left_of_none {κ α : Type} [BEq κ] (a b : List (κ × α)) (k : κ)
    (h : dictGet b k = Option.none) : dictGet (a ++ b) k = dictGet a k := by
  rw [dictGet_append, h]

theorem dictGet_isSome_of_key_mem {κ α : Type} [BEq κ] [LawfulBEq κ] (l : List (κ × α)) (k : κ)
    (h : k ∈ l.map Prod.fst) : (dictGet l k).isSome := by
  rcases List.mem_map.mp h with ⟨p, hp, hk⟩
  subst hk
  exact dictGet_isSome_of_mem l p hp

theorem dictGet_none_of_key_not_mem {κ α : Type} [BEq κ] [LawfulBEq κ] (l : List (κ × α)) (k : κ)
    (h : k ∉ l.map Prod.fst) : dictGet l k = Option.none := by
  refine dictGet_eq_none_of_forall l k ?_
  intro p hp
  by_cases he : p.1 = k
  · exact absurd (List.mem_map.mpr ⟨p, hp, he⟩) h
  · simpa using he

theorem _neighbor_expand_metric_keys (m : Model) (objects : List ObjectInfo) (e : Expr)
    (hops : Int) (ic ir : Bool) (fuel : Nat) (l : List ObjectInfo) (nm : Metrics)
    (h : _neighbor_expand m objects e hops ic ir fuel = .ok (l, nm)) :
    nm.map Prod.fst = ["seed_nodes", "nodes_seen", "edges_traversed", "max_hops"] := by
  unfold _neighbor_expand at h
  cases hbp : build_predicate e with
  | error msg => rw [hbp] at h; simp [Bind.bind, Except.bind] at h
  | ok p =>
      rw [hbp] at h
      simp only [Bind.bind, Except.bind] at h
      cases hss : selectStart m p Option.none objects with
      | error msg => rw [hss] at h; simp at h
      | ok seeds =>
          rw [hss] at h
          by_cases he : seeds.isEmpty
          · simp [he] at h
            rw [← h.2]
            rfl
          · simp [he] at h
            rw [← h.2]
            rfl

theorem _expand_from_metric_keys (m : Model) (objects : List ObjectInfo) (e : Expr)
    (d : Option Int) (ec : Option (List String)) (fuel : Nat)
    (r : List ObjectInfo × Metrics × List (Nat × String) × List (Nat × String))
    (h : _expand_from m objects e d ec fuel = .ok r) :
    r.2.1.map Prod.fst =
      ["start_nodes", "nodes_seen", "edges_traversed", "loops_detected", "max_depth"] := by
  unfold _expand_from at h
  cases hbp : build_predicate e with
  | error msg => rw [hbp] at h; simp [Bind.bind, Except.bind] at h
  | ok p =>
      rw [hbp] at h
      simp only [Bind.bind, Except.bind] at h
      cases hss : selectStart m p ec objects with
      | error msg => rw [hss] at h; simp at h
      | ok start =>
          rw [hss] at h
          by_cases he : start.isEmpty
          · simp [he] at h
            rw [← h]
            rfl
          · simp [he] at h
            cases hel : expandLoop m ec d (objects.map fun i => (i.obj, i.objId)) fuel
                { seen := dedupFirst start, frontier := start,
                  pathMap := start.map fun o => (o, "/" ++ _node_label m o),
                  idPathMap := start.filterMap fun o =>
                    (dictGet (objects.map fun i => (i.obj, i.objId)) o).map
                      (fun fid => (o, "/" ++ _id_label m o fid)),
                  depth := 0, edgesTraversed := 0, loopsDetected := 0 } with
            | error msg => rw [hel] at h; simp at h
            | ok st =>
                rw [hel] at h
                simp only [Except.ok.injEq] at h
                rw [← h]
                rfl

/-- C2 (amended): when both expansion stages run and `_apply_filter` succeeds,
the merged metrics dict is `{**expand_metrics, **neighbor_metrics}`; the two
key sets are NOT disjoint — they share `nodes_seen` and `edges_traversed`, and
for those two keys the neighborhood values overwrite the reachability values
on read, while each mapping's other keys (`seed_nodes`, `max_hops` /
`start_nodes`, `loops_detected`, `max_depth`) are read unchanged. -/
theorem c2_metrics_merge (m : Model) (objects : List ObjectInfo)
    (fe : Option Expr) (ee ne : Expr) (ed : Option Int) (ec : Option (List String))
    (nh : Int) (fuel : Nat)
    (out : List ObjectInfo × Option Metrics ×
      Option (List (Nat × String)) × Option (List (Nat × String)))
    (h : _apply_filter m objects fe (some ee) ed ec (some ne) (some nh) fuel = .ok out) :
    ∃ (objs1 : List ObjectInfo) (nm : Metrics)
      (r2 : List ObjectInfo × Metrics × List (Nat × String) × List (Nat × String)),
      _neighbor_expand m objects ne nh true true fuel = .ok (objs1, nm) ∧
      _expand_from m objs1 ee ed ec fuel = .ok r2 ∧
      out.2.1 = some (r2.2.1 ++ nm) ∧
      nm.map Prod.fst = ["seed_nodes", "nodes_seen", "edges_traversed", "max_hops"] ∧
      r2.2.1.map Prod.fst =
        ["start_nodes", "nodes_seen", "edges_traversed", "loops_detected", "max_depth"] ∧
      dictGet (r2.2.1 ++ nm) "nodes_seen" = dictGet nm "nodes_seen" ∧
      dictGet (r2.2.1 ++ nm) "edges_traversed" = dictGet nm "edges_traversed" ∧
      dictGet (r2.2.1 ++ nm) "seed_nodes" = dictGet nm "seed_nodes" ∧
      dictGet (r2.2.1 ++ nm) "max_hops" = dictGet nm "max_hops" ∧
      dictGet (r2.2.1 ++ nm) "start_nodes" = dictGet r2.2.1 "start_nodes" ∧
      dictGet (r2.2.1 ++ nm) "loops_detected" = dictGet r2.2.1 "loops_detected" ∧
      dictGet (r2.2.1 ++ nm) "max_depth" = dictGet r2.2.1 "max_depth" := by
  unfold _apply_filter at h
  simp only [Bind.bind, Except.bind, pure, Except.pure] at h
  cases hn : _neighbor_expand m objects ne nh true true fuel with
  | error msg => rw [hn] at h; simp at h
  | ok r1 =>
      rw [hn] at h
      simp only [] at h
      cases hx : _expand_from m r1.1 ee ed ec fuel with
      | error msg => rw [hx] at h; simp at h
      | ok r2 =>
          rw [hx] at h
          simp only [] at h
          have hnkeys := _neighbor_expand_metric_keys m objects ne nh true true fuel r1.1 r1.2
            (by rw [← hn])
          have hekeys := _expand_from_metric_keys m r1.1 ee ed ec fuel r2 hx
          have hnne : r1.2 ≠ [] := by
            intro hnil
            rw [hnil] at hnkeys
            cases hnkeys
          have hene : r2.2.1 ≠ [] := by
            intro hnil
            rw [hnil] at hekeys
            cases hekeys
          have hmerge : mergeMetrics (some r2.2.1) (some r1.2) = some (r2.2.1 ++ r1.2) := by
            unfold mergeMetrics mTruthy
            rw [if_pos]
            · simp
            · simp [List.isEmpty_iff, hnne, hene]
          have hout : out.2.1 = some (r2.2.1 ++ r1.2) := by
            cases fe with
            | none =>
                simp only [] at h
                simp only [Except.ok.injEq] at h
                rw [← h]
                simpa using hmerge
            | some fexpr =>
                simp only [] at h
                cases hbp : build_predicate fexpr with
                | error msg => rw [hbp] at h; simp at h
                | ok p =>
                    rw [hbp] at h
                    simp only [] at h
                    cases hfo : filterObjects m p r2.1 with
                    | error msg => rw [hfo] at h; simp at h
                    | ok result =>
                        rw [hfo] at h
                        simp only [Except.ok.injEq] at h
                        rw [← h]
                        simpa using hmerge
          refine ⟨r1.1, r1.2, r2, by rw [← hn], hx, hout, hnkeys, hekeys, ?_, ?_, ?_, ?_, ?_, ?_, ?_⟩
          · exact dictGet_append_right_of_isSome _ _ _
              (dictGet_isSome_of_key_mem _ _ (by rw [hnkeys]; decide))
          · exact dictGet_append_right_of_isSome _ _ _
              (dictGet_isSome_of_key_mem _ _ (by rw [hnkeys]; decide))
          · exact dictGet_append_right_of_isSome _ _ _
              (dictGet_isSome_of_key_mem _ _ (by rw [hnkeys]; decide))
          · exact dictGet_append_right_of_isSome _ _ _
              (dictGet_isSome_of_key_mem _ _ (by rw [hnkeys]; decide))
          · exact dictGet_append_left_of_none _ _ _
              (dictGet_none_of_key_not_mem _ _ (by rw [hnkeys]; decide))
          · exact dictGet_append_left_of_none _ _ _
              (dictGet_none_of_key_not_mem _ _ (by rw [hnkeys]; decide))
          · exact dictGet_append_left_of_none _ _ _
              (dictGet_none_of_key_not_mem _ _ (by rw [hnkeys]; decide))

/-- C2, counterexample to the claim as stated: in a run where both stages
produce metrics, both dicts carry the key `nodes_seen` (values `3` and `1`),
and the merged dict reads `3` — the neighborhood value has overwritten the
reachability value, so the key sets are not distinct. -/
theorem c2_counterexample :
    nbMetric (_neighbor_expand compoM compoObjs exprTrue 0 true true 10) "nodes_seen" =
      some 3 ∧
    resMetric (_expand_from compoM compoObjs (exprEclassIs "T") (some (-1)) Option.none 10)
      "nodes_seen" = some 1 ∧
    afMetric (_apply_filter compoM compoObjs Option.none (some (exprEclassIs "T")) (some (-1))
      Option.none (some exprTrue) (some 0) 10) "nodes_seen" = some 3 ∧
    some (3 : Int) ≠ some (1 : Int) :=
  ⟨by rfl, by rfl, by rfl, by decide⟩

/-- C2 witness: the merge-structure theorem applied to the concrete
two-stage run. -/
theorem c2_metrics_merge_witness :
    ∃ (objs1 : List ObjectInfo) (nm : Metrics)
      (r2 : List ObjectInfo × Metrics × List (Nat × String) × List (Nat × String)),
      _neighbor_expand compoM compoObjs exprTrue 0 true true 10 = .ok (objs1, nm) ∧
      _expand_from compoM objs1 (exprEclassIs "T") (some (-1)) Option.none 10 = .ok r2 ∧
      (([⟨2, "o2", "/T[0]"⟩],
        some [("start_nodes", 1), ("nodes_seen", 1), ("edges_traversed", 0),
              ("loops_detected", 0), ("max_depth", 1), ("seed_nodes", 3), ("nodes_seen", 3),
              ("edges_traversed", 0), ("max_hops", 0)],
        some [(2, "/")], some [(2, "/o2")]) :
        List ObjectInfo × Option Metrics ×
          Option (List (Nat × String)) × Option (List (Nat × String))).2.1 =
        some (r2.2.1 ++ nm) ∧
      nm.map Prod.fst = ["seed_nodes", "nodes_seen", "edges_traversed", "max_hops"] ∧
      r2.2.1.map Prod.fst =
        ["start_nodes", "nodes_seen", "edges_traversed", "loops_detected", "max_depth"] ∧
      dictGet (r2.2.1 ++ nm) "nodes_seen" = dictGet nm "nodes_seen" ∧
      dictGet (r2.2.1 ++ nm) "edges_traversed" = dictGet nm "edges_traversed" ∧
      dictGet (r2.2.1 ++ nm) "seed_nodes" = dictGet nm "seed_nodes" ∧
      dictGet (r2.2.1 ++ nm) "max_hops" = dictGet nm "max_hops" ∧
      dictGet (r2.2.1 ++ nm) "start_nodes" = dictGet r2.2.1 "start_nodes" ∧
      dictGet (r2.2.1 ++ nm) "loops_detected" = dictGet r2.2.1 "loops_detected" ∧
      dictGet (r2.2.1 ++ nm) "max_depth" = dictGet r2.2.1 "max_depth" := by
  exact c2_metrics_merge compoM compoObjs Option.none (exprEclassIs "T") exprTrue (some (-1))
    Option.none 0 10 _ (by rfl)

/-! ## C8: termination of reachability expansion on cyclic graphs -/

/-- One or more processing steps extend `seen` and the accumulating frontier by
the same fresh objects, all drawn from `T`. -/
def ExtTo (T : List Nat) (s s' : ExpSt) : Prop :=
  ∃ Δ, s'.seen = s.seen ++ Δ ∧ s'.frontier = s.frontier ++ Δ ∧
    (∀ x ∈ Δ, x ∈ T) ∧ (∀ x ∈ Δ, x ∉ s.seen) ∧
    (s.seen.Nodup → s'.seen.Nodup)

theorem ExtTo_refl (T : List Nat) (s : ExpSt) : ExtTo T s s := by
  refine ⟨[], by simp, by simp, ?_, ?_, fun h => h⟩
  · intro x hx; cases hx
  · intro x hx; cases hx

theorem ExtTo_refl_eq (T : List Nat) (s s' : ExpSt)
    (h1 : s'.seen = s.seen) (h2 : s'.frontier = s.frontier) : ExtTo T s s' := by
  refine ⟨[], by simp [h1], by simp [h2], ?_, ?_, fun h => h1 ▸ h⟩
  · intro x hx; cases hx
  · intro x hx; cases hx

theorem ExtTo_trans (T : List Nat) (s1 s2 s3 : ExpSt)
    (h1 : ExtTo T s1 s2) (h2 : ExtTo T s2 s3) : ExtTo T s1 s3 := by
  rcases h1 with ⟨d1, hs1, hf1, ht1, hn1, hdup1⟩
  rcases h2 with ⟨d2, hs2, hf2, ht2, hn2, hdup2⟩
  refine ⟨d1 ++ d2, ?_, ?_, ?_, ?_, ?_⟩
  · rw [hs2, hs1, List.append_assoc]
  · rw [hf2, hf1, List.append_assoc]
  · intro x hx
    rcases List.mem_append.mp hx with h | h
    · exact ht1 x h
    · exact ht2 x h
  · intro x hx
    rcases List.mem_append.mp hx with h | h
    · exact hn1 x h
    · intro hmem
      exact hn2 x h (by rw [hs1]; exact List.mem_append_left d1 hmem)
  · intro hd
    exact hdup2 (hdup1 hd)

theorem ExtTo_mono (T T' : List Nat) (s s' : ExpSt) (hss : ∀ x ∈ T, x ∈ T')
    (h : ExtTo T s s') : ExtTo T' s s' := by
  rcases h with ⟨d, hs, hf, ht, hn, hdup⟩
  exact ⟨d, hs, hf, fun x hx => hss x (ht x hx), hn, hdup⟩

theorem stepTarget_ext (m : Model) (ec : Option (List String)) (im : List (Nat × String))
    (parent : Nat) (st st' : ExpSt) (t : Option Nat)
    (h : stepTargetMany m ec im parent st t = .ok st' ∨
         stepTargetScalar m ec im parent st t = .ok st') :
    ExtTo t.toList st st' := by
  have addCase : ∀ (target : Nat),
      t = some target →
      st.seen.contains target = false →
      st'.seen = st.seen ++ [target] →
      st'.frontier = st.frontier ++ [target] →
      ExtTo t.toList st st' := by
    intro target hteq hcon hseen hfront
    subst hteq
    have hnm : target ∉ st.seen := by simpa using hcon
    refine ⟨[target], hseen, hfront, ?_, ?_, ?_⟩
    · intro x hx
      simpa using hx
    · intro x hx
      simp only [List.mem_singleton] at hx
      subst hx
      exact hnm
    · intro hd
      rw [hseen]
      rw [List.nodup_append]
      refine ⟨hd, List.nodup_singleton _, ?_⟩
      intro x hx hx'
      simp only [List.mem_singleton] at hx'
      subst hx'
      exact absurd hx hnm
  rcases h with h | h
  · unfold stepTargetMany at h
    cases t with
    | none => cases h; exact ExtTo_refl _ _
    | some target =>
        simp only at h
        by_cases hb : classBlocked ec (m.className target)
        · rw [if_pos hb] at h; cases h; exact ExtTo_refl_eq _ _ _ rfl rfl
        · rw [if_neg hb] at h
          by_cases hc : st.seen.contains target
          · rw [if_pos hc] at h; cases h; exact ExtTo_refl_eq _ _ _ rfl rfl
          · rw [if_neg hc] at h
            simp only [Bind.bind, Except.bind] at h
            cases hp : dictGet st.pathMap parent with
            | none => rw [hp] at h; cases h
            | some pp =>
                rw [hp] at h
                cases hq : dictGet im target with
                | none => rw [hq] at h; cases h
                | some fid =>
                    rw [hq] at h
                    simp only [Except.ok.injEq] at h
                    refine addCase target rfl (Bool.of_not_eq_true hc) ?_ ?_
                    · rw [← h]
                    · rw [← h]
  · unfold stepTargetScalar at h
    cases t with
    | none => cases h; exact ExtTo_refl _ _
    | some target =>
        simp only at h
        by_cases hb : classBlocked ec (m.className target)
        · rw [if_pos hb] at h; cases h; exact ExtTo_refl _ _
        · rw [if_neg hb] at h
          by_cases hc : st.seen.contains target
          · rw [if_pos hc] at h; cases h; exact ExtTo_refl_eq _ _ _ rfl rfl
          · rw [if_neg hc] at h
            simp only [Bind.bind, Except.bind] at h
            cases hp : dictGet st.pathMap parent with
            | none => rw [hp] at h; cases h
            | some pp =>
                rw [hp] at h
                cases hq : dictGet im target with
                | none => rw [hq] at h; cases h
                | some fid =>
                    rw [hq] at h
                    simp only [Except.ok.injEq] at h
                    refine addCase target rfl (Bool.of_not_eq_true hc) ?_ ?_
                    · rw [← h]
                    · rw [← h]

theorem foldlM_ext {α : Type} (f : ExpSt → α → Except String ExpSt) (T : List Nat) :
    ∀ (l : List α),
      (∀ s a, a ∈ l → ∀ s', f s a = .ok s' → ExtTo T s s') →
      ∀ (s s' : ExpSt), l.foldlM f s = .ok s' → ExtTo T s s' := by
  intro l
  induction l with
  | nil =>
      intro _ s s' h
      simp only [List.foldlM_nil, pure, Except.pure] at h
      cases h
      exact ExtTo_refl _ _
  | cons a tl ih =>
      intro hf s s' h
      rw [List.foldlM_cons] at h
      cases h1 : f s a with
      | error e => rw [h1] at h; simp [Bind.bind, Except.bind] at h
      | ok s1 =>
          rw [h1] at h
          simp only [Bind.bind, Except.bind] at h
          refine ExtTo_trans T s s1 s' (hf s a (List.mem_cons_self a tl) s1 h1) ?_
          exact ih (fun s a ha s' h' => hf s a (List.mem_cons_of_mem _ ha) s' h') s1 s' h

theorem slotVal_toList_subset (sl : Slot) (t : Option Nat) (items : List (Option Nat))
    (hval : sl.val = .many items) (ht : t ∈ items) :
    ∀ x ∈ t.toList, x ∈ _iter_values sl.val := by
  intro x hx
  cases t with
  | none => cases hx
  | some v =>
      simp only [Option.toList, List.mem_singleton] at hx
      subst hx
      rw [hval]
      unfold _iter_values
      exact List.mem_filterMap.mpr ⟨some x, ht, rfl⟩

theorem stepObj_ext (m : Model) (ec : Option (List String)) (im : List (Nat × String))
    (st st' : ExpSt) (o : Nat)
    (h : stepObj m ec im st o = .ok st') : ExtTo (allTargets m o) st st' := by
  unfold stepObj at h
  refine foldlM_ext _ (allTargets m o) _ ?_ _ _ h
  intro s sl hsl s1 hstep
  have hsub : ∀ x ∈ _iter_values sl.val, x ∈ allTargets m o := by
    intro x hx
    unfold allTargets
    exact List.mem_flatMap.mpr ⟨sl, hsl, hx⟩
  refine ExtTo_mono (_iter_values sl.val) _ _ _ hsub ?_
  cases hv : sl.val with
  | many items =>
      rw [hv] at hstep
      simp only at hstep
      refine foldlM_ext _ (_iter_values (SlotVal.many items)) items ?_ _ _ hstep
      intro s2 t ht s3 h3
      refine ExtTo_mono t.toList _ _ _ ?_ (stepTarget_ext m ec im o s2 s3 t (Or.inl h3))
      intro x hx
      cases t with
      | none => cases hx
      | some v =>
          simp only [Option.toList, List.mem_singleton] at hx
          subst hx
          unfold _iter_values
          exact List.mem_filterMap.mpr ⟨some x, ht, rfl⟩
  | scalar v =>
      rw [hv] at hstep
      simp only at hstep
      refine ExtTo_mono v.toList _ _ _ ?_ (stepTarget_ext m ec im o s s1 v (Or.inr hstep))
      intro x hx
      cases v with
      | none => cases hx
      | some w =>
          simp only [Option.toList, List.mem_singleton] at hx
          subst hx
          unfold _iter_values
          exact List.mem_singleton.mpr rfl

theorem expandStep_ext (m : Model) (ec : Option (List String)) (im : List (Nat × String))
    (st st' : ExpSt) (h : expandStep m ec im st = .ok st') :
    st'.seen = st.seen ++ st'.frontier ∧
    (∀ x ∈ st'.frontier, x ∈ st.frontier.flatMap (allTargets m)) ∧
    (∀ x ∈ st'.frontier, x ∉ st.seen) ∧
    (st.seen.Nodup → st'.seen.Nodup) := by
  unfold expandStep at h
  simp only [Bind.bind, Except.bind] at h
  cases hf : st.frontier.foldlM (stepObj m ec im) { st with frontier := [] } with
  | error e => rw [hf] at h; cases h
  | ok st1 =>
      rw [hf] at h
      simp only [Except.ok.injEq] at h
      have hext : ExtTo (st.frontier.flatMap (allTargets m)) { st with frontier := [] } st1 := by
        refine foldlM_ext _ _ _ ?_ _ _ hf
        intro s a ha s' hs
        refine ExtTo_mono (allTargets m a) _ _ _ ?_ (stepObj_ext m ec im s s' a hs)
        intro x hx
        exact List.mem_flatMap.mpr ⟨a, ha, hx⟩
      rcases hext with ⟨d, hseen, hfront, ht, hn, hdup⟩
      simp only [List.nil_append] at hfront
      rw [← h]
      simp only []
      refine ⟨?_, ?_, ?_, ?_⟩
      · rw [hseen, hfront]
      · intro x hx
        rw [hfront] at hx
        exact ht x hx
      · intro x hx
        rw [hfront] at hx
        exact hn x hx
      · intro hd
        exact hdup hd

theorem expandLoop_empty_frontier (m : Model) (ec : Option (List String)) (ed : Option Int)
    (im : List (Nat × String)) (st : ExpSt) (h : st.frontier = []) :
    ∀ f, expandLoop m ec ed im f st = .ok st := by
  intro f
  cases f with
  | zero => rfl
  | succ g =>
      unfold expandLoop
      rw [if_pos]
      rw [h]
      simp

theorem covers_of_nodup_length (a u : List Nat) (ha : a.Nodup)
    (hs : ∀ x ∈ a, x ∈ u) (hl : u.length ≤ a.length) : ∀ x ∈ u, x ∈ a := by
  have hsub : a.toFinset ⊆ u.toFinset := by
    intro x hx
    exact List.mem_toFinset.mpr (hs x (List.mem_toFinset.mp hx))
  have hcard : u.toFinset.card ≤ a.toFinset.card := by
    calc u.toFinset.card ≤ u.length := u.toFinset_card_le
    _ ≤ a.length := hl
    _ = a.toFinset.card := (List.toFinset_card_of_nodup ha).symm
  have heq : a.toFinset = u.toFinset := Finset.eq_of_subset_of_card_le hsub hcard
  intro x hx
  have : x ∈ u.toFinset := List.mem_toFinset.mpr hx
  rw [← heq] at this
  exact List.mem_toFinset.mp this

theorem expandLoop_stab (m : Model) (ec : Option (List String)) (ed : Option Int)
    (im : List (Nat × String)) (U : List Nat)
    (hcl : ∀ o ∈ U, ∀ t ∈ allTargets m o, t ∈ U) :
    ∀ (n : Nat) (st : ExpSt), st.seen.Nodup → (∀ x ∈ st.seen, x ∈ U) →
      (∀ x ∈ st.frontier, x ∈ st.seen) →
      U.length ≤ st.seen.length + n →
      ∀ f₁ f₂, n + 1 ≤ f₁ → n + 1 ≤ f₂ →
      expandLoop m ec ed im f₁ st = expandLoop m ec ed im f₂ st := by
  intro n
  induction n with
  | zero =>
      intro st hnd hsU hfs hlen f₁ f₂ hf₁ hf₂
      have hcov : ∀ x ∈ U, x ∈ st.seen :=
        covers_of_nodup_length st.seen U hnd hsU (by omega)
      obtain ⟨g₁, rfl⟩ : ∃ g, f₁ = g + 1 := ⟨f₁ - 1, by omega⟩
      obtain ⟨g₂, rfl⟩ : ∃ g, f₂ = g + 1 := ⟨f₂ - 1, by omega⟩
      show expandLoop m ec ed im (g₁ + 1) st = expandLoop m ec ed im (g₂ + 1) st
      unfold expandLoop
      by_cases hc : (st.frontier.isEmpty || !depthOk ed st.depth)
      · rw [if_pos hc, if_pos hc]
      · rw [if_neg hc, if_neg hc]
        cases hstep : expandStep m ec im st with
        | error e => rfl
        | ok st' =>
            show expandLoop m ec ed im g₁ st' = expandLoop m ec ed im g₂ st'
            rcases expandStep_ext m ec im st st' hstep with ⟨hseen, hT, hnotin, hdup⟩
            have hfe : st'.frontier = [] := by
              rw [List.eq_nil_iff_forall_not_mem]
              intro x hx
              have h1 : x ∈ U := by
                rcases List.mem_flatMap.mp (hT x hx) with ⟨o, ho, hot⟩
                exact hcl o (hsU o (hfs o ho)) x hot
              exact hnotin x hx (hcov x h1)
            rw [expandLoop_empty_frontier m ec ed im st' hfe g₁,
               expandLoop_empty_frontier m ec ed im st' hfe g₂]
  | succ k ih =>
      intro st hnd hsU hfs hlen f₁ f₂ hf₁ hf₂
      obtain ⟨g₁, rfl⟩ : ∃ g, f₁ = g + 1 := ⟨f₁ - 1, by omega⟩
      obtain ⟨g₂, rfl⟩ : ∃ g, f₂ = g + 1 := ⟨f₂ - 1, by omega⟩
      show expandLoop m ec ed im (g₁ + 1) st = expandLoop m ec ed im (g₂ + 1) st
      unfold expandLoop
      by_cases hc : (st.frontier.isEmpty || !depthOk ed st.depth)
      · rw [if_pos hc, if_pos hc]
      · rw [if_neg hc, if_neg hc]
        cases hstep : expandStep m ec im st with
        | error e => rfl
        | ok st' =>
            show expandLoop m ec ed im g₁ st' = expandLoop m ec ed im g₂ st'
            rcases expandStep_ext m ec im st st' hstep with ⟨hseen, hT, hnotin, hdup⟩
            by_cases hfe : st'.frontier = []
            · rw [expandLoop_empty_frontier m ec ed im st' hfe g₁,
                 expandLoop_empty_frontier m ec ed im st' hfe g₂]
            · have hnd' : st'.seen.Nodup := hdup hnd
              have hsU' : ∀ x ∈ st'.seen, x ∈ U := by
                intro x hx
                rw [hseen] at hx
                rcases List.mem_append.mp hx with h1 | h1
                · exact hsU x h1
                · rcases List.mem_flatMap.mp (hT x h1) with ⟨o, ho, hot⟩
                  exact hcl o (hsU o (hfs o ho)) x hot
              have hfs' : ∀ x ∈ st'.frontier, x ∈ st'.seen := by
                intro x hx
                rw [hseen]
                exact List.mem_append_right _ hx
              have hlen' : U.length ≤ st'.seen.length + k := by
                have hlen2 : st'.seen.length = st.seen.length + st'.frontier.length := by
                  rw [hseen, List.length_append]
                have hpos : 1 ≤ st'.frontier.length := by
                  cases hq : st'.frontier with
                  | nil => exact absurd hq hfe
                  | cons a l => simp
                omega
              exact ih st' hnd' hsU' hfs' hlen' g₁ g₂ (by omega) (by omega)

theorem dedupFirst_aux (l : List Nat) :
    ∀ acc : List Nat, acc.Nodup →
      (l.foldl (fun acc o => if acc.contains o then acc else acc ++ [o]) acc).Nodup ∧
      (∀ x, (x ∈ acc ∨ x ∈ l) →
        x ∈ l.foldl (fun acc o => if acc.contains o then acc else acc ++ [o]) acc) := by
  induction l with
  | nil =>
      intro acc h
      refine ⟨h, ?_⟩
      intro x hx
      rcases hx with h1 | h1
      · exact h1
      · cases h1
  | cons y t ih =>
      intro acc hacc
      rw [List.foldl_cons]
      by_cases hy : acc.contains y
      · rw [if_pos hy]
        refine ⟨(ih acc hacc).1, ?_⟩
        intro x hx
        refine (ih acc hacc).2 x ?_
        rcases hx with h1 | h1
        · exact Or.inl h1
        · rcases List.mem_cons.mp h1 with h2 | h2
          · subst h2
            exact Or.inl (by simpa using hy)
          · exact Or.inr h2
      · rw [if_neg hy]
        have hacc' : (acc ++ [y]).Nodup := by
          rw [List.nodup_append]
          refine ⟨hacc, List.nodup_singleton y, ?_⟩
          intro a ha ha'
          simp only [List.mem_singleton] at ha'
          subst ha'
          have hny : a ∉ acc := by simpa using hy
          exact hny ha
        refine ⟨(ih _ hacc').1, ?_⟩
        intro x hx
        refine (ih _ hacc').2 x ?_
        rcases hx with h1 | h1
        · exact Or.inl (List.mem_append_left _ h1)
        · rcases List.mem_cons.mp h1 with h2 | h2
          · subst h2
            exact Or.inl (List.mem_append_right _ (List.mem_singleton.mpr rfl))
          · exact Or.inr h2

theorem dedupFirst_nodup (l : List Nat) : (dedupFirst l).Nodup :=
  (dedupFirst_aux l [] List.nodup_nil).1

theorem mem_dedupFirst (l : List Nat) (x : Nat) (h : x ∈ l) : x ∈ dedupFirst l :=
  (dedupFirst_aux l [] List.nodup_nil).2 x (Or.inr h)

theorem selectStart_mem (m : Model) (p : Model → Ctx → Except String Bool)
    (ec : Option (List String)) :
    ∀ (objects : List ObjectInfo) (start : List Nat),
      selectStart m p ec objects = .ok start →
      ∀ o ∈ start, o ∈ objects.map (fun i => i.obj) := by
  intro objects
  induction objects with
  | nil =>
      intro start h o ho
      unfold selectStart at h
      cases h
      cases ho
  | cons info rest ih =>
      intro start h o ho
      unfold selectStart at h
      by_cases hc : (classRestricted ec && !((ec.getD []).contains (m.className info.obj)))
      · rw [if_pos hc] at h
        exact List.mem_cons_of_mem _ (ih start h o ho)
      · rw [if_neg hc] at h
        simp only [Bind.bind, Except.bind] at h
        cases hb : p m (build_context m info.obj info.objId info.path) with
        | error msg => rw [hb] at h; cases h
        | ok b =>
            rw [hb] at h
            cases ht : selectStart m p ec rest with
            | error msg => rw [ht] at h; cases h
            | ok tail =>
                rw [ht] at h
                simp only [Except.ok.injEq] at h
                subst h
                by_cases hbb : b
                · subst hbb
                  rw [if_pos rfl] at ho
                  rcases List.mem_cons.mp ho with h1 | h1
                  · subst h1
                    exact List.mem_cons_self _ _
                  · exact List.mem_cons_of_mem _ (ih tail ht o h1)
                · simp only [Bool.not_eq_true] at hbb
                  subst hbb
                  rw [if_neg (by simp)] at ho
                  exact List.mem_cons_of_mem _ (ih tail ht o ho)

/-- C8: `_expand_from` terminates on every finite object graph, cycles
included: once the fuel of the embedded while loop exceeds the size of any
reference-closed universe `U` containing the input objects, the result no
longer depends on the fuel (each object enters the frontier at most once, so
the loop reaches a fixpoint within `|U| + 1` iterations).  On the concrete
3-cycle reachable from the single start node, the unbounded request returns
exactly the 3 cyclic nodes and reports `loops_detected = 1 ≥ 1`. -/
theorem c8_expand_terminates :
    (∀ (m : Model) (objects : List ObjectInfo) (e : Expr) (d : Option Int)
       (ec : Option (List String)) (U : List Nat) (fuel₁ fuel₂ : Nat),
       (∀ o ∈ U, ∀ t ∈ allTargets m o, t ∈ U) →
       (∀ info ∈ objects, info.obj ∈ U) →
       U.length + 1 ≤ fuel₁ → U.length + 1 ≤ fuel₂ →
       _expand_from m objects e d ec fuel₁ = _expand_from m objects e d ec fuel₂) ∧
    resNodes (_expand_from cycleM cycleObjs (exprEclassIs "S") (some (-1)) Option.none 10) =
      [1, 2, 3] ∧
    resMetric (_expand_from cycleM cycleObjs (exprEclassIs "S") (some (-1)) Option.none 10)
      "loops_detected" = some 1 := by
  refine ⟨?_, rfl, rfl⟩
  intro m objects e d ec U f₁ f₂ hcl hobjs hf₁ hf₂
  unfold _expand_from
  cases hbp : build_predicate e with
  | error msg => rfl
  | ok p =>
      simp only [Bind.bind, Except.bind]
      cases hss : selectStart m p ec objects with
      | error msg => rfl
      | ok start =>
          by_cases he : start.isEmpty
          · simp [he]
          · simp only [he, Bool.false_eq_true, if_false]
            have hseenU : ∀ x ∈ dedupFirst start, x ∈ U := by
              intro x hx
              have hxs : x ∈ start := dedupFirst_subset start x hx
              have hmo := selectStart_mem m p ec objects start hss x hxs
              rcases List.mem_map.mp hmo with ⟨info, hinfo, hie⟩
              rw [← hie]
              exact hobjs info hinfo
            have hstab := expandLoop_stab m ec d (objects.map fun i => (i.obj, i.objId)) U hcl
              U.length
              { seen := dedupFirst start, frontier := start,
                pathMap := start.map fun o => (o, "/" ++ _node_label m o),
                idPathMap := start.filterMap fun o =>
                  (dictGet (objects.map fun i => (i.obj, i.objId)) o).map
                    (fun fid => (o, "/" ++ _id_label m o fid)),
                depth := 0, edgesTraversed := 0, loopsDetected := 0 }
              (dedupFirst_nodup start) hseenU
              (fun x hx => mem_dedupFirst start x hx)
              (by omega) f₁ f₂ (by omega) (by omega)
            rw [hstab]

/-- C8 witness: fuel-independence applied to the concrete 3-cycle with
universe `[1, 2, 3]` and fuels `4` and `5`. -/
theorem c8_expand_terminates_witness :
    _expand_from cycleM cycleObjs (exprEclassIs "S") (some (-1)) Option.none 4 =
      _expand_from cycleM cycleObjs (exprEclassIs "S") (some (-1)) Option.none 5 := by
  exact c8_expand_terminates.1 cycleM cycleObjs (exprEclassIs "S") (some (-1)) Option.none
    [1, 2, 3] 4 5 (by decide) (by decide) (by decide) (by decide)
/-! ## C5: forest completeness of `build_object_graph` -/

theorem CTree.root_mem_nodes (t : CTree) : CTree.root t ∈ CTree.nodes t := by
  obtain ⟨r, ks⟩ := t
  simp [CTree.root, CTree.nodes]

theorem CTree.mem_nodesF_cons (t : CTree) (ts : List CTree) (x : Nat) :
    x ∈ CTree.nodesF (t :: ts) ↔ x ∈ CTree.nodes t ∨ x ∈ CTree.nodesF ts := by
  simp [CTree.nodesF]

theorem CTree.root_mem_nodesF (ts : List CTree) (t : CTree) (h : t ∈ ts) :
    CTree.root t ∈ CTree.nodesF ts := by
  induction ts with
  | nil => cases h
  | cons u us ih =>
      rcases List.mem_cons.mp h with h | h
      · subst h
        exact (CTree.mem_nodesF_cons t us _).mpr (Or.inl (CTree.root_mem_nodes t))
      · exact (CTree.mem_nodesF_cons u us _).mpr (Or.inr (ih h))

theorem CTree.rootsF_nodup (ts : List CTree) (h : (CTree.nodesF ts).Nodup) :
    (ts.map CTree.root).Nodup := by
  induction ts with
  | nil => simp
  | cons t ts ih =>
      simp only [CTree.nodesF] at h
      rw [List.map_cons, List.nodup_cons]
      refine ⟨?_, ih h.of_append_right⟩
      intro hmem
      rcases List.mem_map.mp hmem with ⟨u, hu, hru⟩
      exact (List.disjoint_of_nodup_append h) (CTree.root_mem_nodes t)
        (hru ▸ CTree.root_mem_nodesF ts u hu)

mutual

theorem CTree.contain_closed (m : Model) (t : CTree) (hag : CTree.agrees m t = true) :
    ∀ x ∈ CTree.nodes t, ∀ y ∈ containChildren m x, y ∈ CTree.nodes t := by
  obtain ⟨r, ks⟩ := t
  simp only [CTree.agrees, Bool.and_eq_true, beq_iff_eq] at hag
  intro x hx y hy
  simp only [CTree.nodes, List.mem_cons] at hx ⊢
  rcases hx with hx | hx
  · subst hx
    rw [hag.1] at hy
    rcases List.mem_map.mp hy with ⟨k, hk, hrk⟩
    exact Or.inr (hrk ▸ CTree.root_mem_nodesF ks k hk)
  · exact Or.inr (CTree.contain_closedF m ks hag.2 x hx y hy)

theorem CTree.contain_closedF (m : Model) (ts : List CTree)
    (hag : CTree.agreesF m ts = true) :
    ∀ x ∈ CTree.nodesF ts, ∀ y ∈ containChildren m x, y ∈ CTree.nodesF ts := by
  match ts with
  | [] => intro x hx; simp [CTree.nodesF] at hx
  | t :: ts =>
      simp only [CTree.agreesF, Bool.and_eq_true] at hag
      intro x hx y hy
      simp only [CTree.nodesF, List.mem_append] at hx ⊢
      rcases hx with hx | hx
      · exact Or.inl (CTree.contain_closed m t hag.1 x hx y hy)
      · exact Or.inr (CTree.contain_closedF m ts hag.2 x hx y hy)

end

mutual

theorem CTree.reaches_of_mem (m : Model) (t : CTree) (hag : CTree.agrees m t = true) :
    ∀ x ∈ CTree.nodes t,
      Relation.ReflTransGen (fun a b => b ∈ containChildren m a) (CTree.root t) x := by
  obtain ⟨r, ks⟩ := t
  simp only [CTree.agrees, Bool.and_eq_true, beq_iff_eq] at hag
  intro x hx
  simp only [CTree.nodes, List.mem_cons] at hx
  simp only [CTree.root]
  rcases hx with hx | hx
  · subst hx; exact Relation.ReflTransGen.refl
  · rcases CTree.reachesF_of_mem m ks hag.2 x hx with ⟨k, hk, hreach⟩
    refine Relation.ReflTransGen.head ?_ hreach
    show CTree.root k ∈ containChildren m r
    rw [hag.1]
    exact List.mem_map.mpr ⟨k, hk, rfl⟩

theorem CTree.reachesF_of_mem (m : Model) (ts : List CTree)
    (hag : CTree.agreesF m ts = true) :
    ∀ x ∈ CTree.nodesF ts, ∃ t ∈ ts,
      Relation.ReflTransGen (fun a b => b ∈ containChildren m a) (CTree.root t) x := by
  match ts with
  | [] => intro x hx; simp [CTree.nodesF] at hx
  | t :: ts =>
      simp only [CTree.agreesF, Bool.and_eq_true] at hag
      intro x hx
      rcases (CTree.mem_nodesF_cons t ts x).mp hx with hx | hx
      · exact ⟨t, List.mem_cons_self t ts, CTree.reaches_of_mem m t hag.1 x hx⟩
      · rcases CTree.reachesF_of_mem m ts hag.2 x hx with ⟨u, hu, hr⟩
        exact ⟨u, List.mem_cons_of_mem t hu, hr⟩

end

theorem CTree.mem_of_reaches (m : Model) (ts : List CTree)
    (hag : CTree.agreesF m ts = true) (r x : Nat) (hr : r ∈ ts.map CTree.root)
    (hreach : Relation.ReflTransGen (fun a b => b ∈ containChildren m a) r x) :
    x ∈ CTree.nodesF ts := by
  induction hreach with
  | refl =>
      rcases List.mem_map.mp hr with ⟨t, ht, hrt⟩
      exact hrt ▸ CTree.root_mem_nodesF ts t ht
  | tail hab hbc ih => exact CTree.contain_closedF m ts hag _ ih _ hbc

theorem dictGet_singleton {κ α : Type} [BEq κ] [LawfulBEq κ] (k : κ) (v : α) :
    dictGet [(k, v)] k = some v := by simp [dictGet]


mutual

theorem visit_present (m : Model) (t : CTree) (fuel : Nat) (path : String) (s : GState)
    (hag : CTree.agrees m t = true) (hnd : (CTree.nodes t).Nodup)
    (hs : (dictGet s.seen (CTree.root t)).isSome)
    (hun : ∀ x ∈ CTree.nodesF (CTree.kids t), dictGet s.seen x = Option.none)
    (hf : (CTree.nodes t).length ≤ fuel) :
    ∃ Δ ΔE,
      (visit m fuel (CTree.root t) path s).seen = s.seen ++ Δ ∧
      Δ.map Prod.fst = CTree.nodesF (CTree.kids t) ∧
      (visit m fuel (CTree.root t) path s).edges = s.edges ++ ΔE ∧
      ΔE.length = (CTree.nodesF (CTree.kids t)).length := by
  obtain ⟨r, ks⟩ := t
  simp only [CTree.root, CTree.kids, CTree.nodes] at hag hnd hs hun hf ⊢
  cases fuel with
  | zero => simp at hf
  | succ f =>
      obtain ⟨i₀, hget⟩ := Option.isSome_iff_exists.mp hs
      have hens : ensure r path s = (i₀, s) := by unfold ensure; rw [hget]
      have hv : visit m (f + 1) r path s =
          (childSpecs m r).foldl (visitStep m (visit m f) i₀ (m.className r)) s := by
        simp only [visit]
        rw [hens]
      simp only [CTree.agrees, Bool.and_eq_true, beq_iff_eq] at hag
      have hspecs : (childSpecs m r).map (fun p => p.2.2) = ks.map CTree.root := hag.1
      obtain ⟨Δ, ΔE, h1, h2, h3, h4⟩ := visitF m ks (childSpecs m r) f i₀ (m.className r) s
        hspecs hag.2 hnd.of_cons hun (Nat.succ_le_succ_iff.mp (by simpa using hf))
      exact ⟨Δ, ΔE, by rw [hv]; exact h1, h2, by rw [hv]; exact h3, h4⟩

theorem visitF (m : Model) (ks : List CTree) (specs : List (String × Nat × Nat))
    (fuel : Nat) (info : ObjectInfo) (cls : String) (s : GState)
    (hmap : specs.map (fun p => p.2.2) = ks.map CTree.root)
    (hag : CTree.agreesF m ks = true)
    (hnd : (CTree.nodesF ks).Nodup)
    (hun : ∀ x ∈ CTree.nodesF ks, dictGet s.seen x = Option.none)
    (hf : (CTree.nodesF ks).length ≤ fuel) :
    ∃ Δ ΔE,
      (specs.foldl (visitStep m (visit m fuel) info cls) s).seen = s.seen ++ Δ ∧
      Δ.map Prod.fst = CTree.nodesF ks ∧
      (specs.foldl (visitStep m (visit m fuel) info cls) s).edges = s.edges ++ ΔE ∧
      ΔE.length = (CTree.nodesF ks).length := by
  match ks with
  | [] =>
      simp only [List.map_nil, List.map_eq_nil_iff] at hmap
      subst hmap
      exact ⟨[], [], by simp, by simp [CTree.nodesF], by simp, by simp [CTree.nodesF]⟩
  | k :: ks' =>
      match specs with
      | [] => simp at hmap
      | sp :: specs' =>
          obtain ⟨kr, kks⟩ := k
          simp only [List.map_cons, List.cons.injEq, CTree.root] at hmap
          obtain ⟨hsp, hmap'⟩ := hmap
          simp only [CTree.agreesF, Bool.and_eq_true] at hag
          have hnd' : (CTree.nodes (CTree.node kr kks) ++ CTree.nodesF ks').Nodup := by
            simpa only [CTree.nodesF] using hnd
          have hndk : (CTree.nodes (CTree.node kr kks)).Nodup := hnd'.of_append_left
          have hdisj : (CTree.nodes (CTree.node kr kks)).Disjoint (CTree.nodesF ks') :=
            List.disjoint_of_nodup_append hnd'
          have hkr_mem : kr ∈ CTree.nodesF (CTree.node kr kks :: ks') := by
            simp [CTree.nodesF, CTree.nodes]
          have hkr_unseen : dictGet s.seen kr = Option.none := hun kr hkr_mem
          set cp := info.path ++ "/" ++ sp.1 ++ "[" ++ toString sp.2.1 ++ "]" with hcp
          set i₁ : ObjectInfo := ⟨kr, "o" ++ toString (s.seen.length + 1), cp⟩ with hi₁
          set e : Edge := ⟨info.objId, cls, sp.1, i₁.objId, m.className kr, true⟩ with he
          set s2 : GState := { seen := s.seen ++ [(kr, i₁)], edges := s.edges ++ [e] }
            with hs2
          have hstep : visitStep m (visit m fuel) info cls s sp = visit m fuel kr cp s2 := by
            unfold visitStep
            simp only [hsp]
            unfold ensure
            simp only [hkr_unseen]
          have hkids_unseen : ∀ x ∈ CTree.nodesF kks, dictGet s2.seen x = Option.none := by
            intro x hx
            have hx_nodes : x ∈ CTree.nodes (CTree.node kr kks) := by
              simp only [CTree.nodes]
              exact List.mem_cons_of_mem kr hx
            have hxkr : x ≠ kr := by
              intro hxe
              subst hxe
              have hcons : ¬ x ∈ CTree.nodesF kks ∧ (CTree.nodesF kks).Nodup := by
                simpa only [CTree.nodes, List.nodup_cons] using hndk
              exact hcons.1 hx
            rw [hs2]
            show dictGet (s.seen ++ [(kr, i₁)]) x = Option.none
            rw [dictGet_append_left_of_none _ _ _
              (dictGet_none_of_key_not_mem _ _ (by simpa using hxkr))]
            exact hun x (by simp only [CTree.nodesF]; exact List.mem_append_left _ hx_nodes)
          have hkr_seen : (dictGet s2.seen (CTree.root (CTree.node kr kks))).isSome := by
            rw [hs2]
            show (dictGet (s.seen ++ [(kr, i₁)]) kr).isSome
            rw [dictGet_append_right_of_isSome _ _ _ (by rw [dictGet_singleton]; rfl)]
            rw [dictGet_singleton]
            rfl
          have hflen : (CTree.nodes (CTree.node kr kks)).length ≤ fuel := by
            have hlen : (CTree.nodesF (CTree.node kr kks :: ks')).length =
                (CTree.nodes (CTree.node kr kks)).length + (CTree.nodesF ks').length := by
              simp [CTree.nodesF]
            omega
          obtain ⟨Δ₁, ΔE₁, hA1, hA2, hA3, hA4⟩ := visit_present m (CTree.node kr kks) fuel cp
            s2 hag.1 hndk hkr_seen (by simpa only [CTree.kids] using hkids_unseen) hflen
          simp only [CTree.root, CTree.kids] at hA1 hA2 hA3 hA4
          have hun3 : ∀ x ∈ CTree.nodesF ks',
              dictGet (visit m fuel kr cp s2).seen x = Option.none := by
            intro x hx
            have hxn : x ∉ CTree.nodes (CTree.node kr kks) := fun hc => hdisj hc hx
            rw [hA1]
            show dictGet ((s.seen ++ [(kr, i₁)]) ++ Δ₁) x = Option.none
            rw [dictGet_append_left_of_none _ _ _ (dictGet_none_of_key_not_mem _ _ ?_)]
            · rw [dictGet_append_left_of_none _ _ _ (dictGet_none_of_key_not_mem _ _ ?_)]
              · exact hun x (by
                  simp only [CTree.nodesF]
                  exact List.mem_append_right _ hx)
              · intro hc
                simp only [List.map_cons, List.map_nil, List.mem_singleton] at hc
                exact hxn (by simp [CTree.nodes, hc])
            · rw [hA2]
              intro hc
              exact hxn (by simp only [CTree.nodes]; exact List.mem_cons_of_mem kr hc)
          have hf3 : (CTree.nodesF ks').length ≤ fuel := by
            have hlen : (CTree.nodesF (CTree.node kr kks :: ks')).length =
                (CTree.nodes (CTree.node kr kks)).length + (CTree.nodesF ks').length := by
              simp [CTree.nodesF]
            omega
          obtain ⟨Δ₂, ΔE₂, hB1, hB2, hB3, hB4⟩ := visitF m ks' specs' fuel info cls
            (visit m fuel kr cp s2) hmap' hag.2 hnd'.of_append_right hun3 hf3
          refine ⟨(kr, i₁) :: (Δ₁ ++ Δ₂), e :: (ΔE₁ ++ ΔE₂), ?_, ?_, ?_, ?_⟩
          · rw [List.foldl_cons, hstep, hB1, hA1]
            simp
          · simp only [List.map_cons, List.map_append, hB2, hA2,
              CTree.nodesF, CTree.nodes]
            rfl
          · rw [List.foldl_cons, hstep, hB3, hA3]
            simp
          · simp only [List.length_cons, List.length_append, hA4, hB4]
            simp only [CTree.nodesF, CTree.nodes, List.length_append, List.length_cons]
            omega

end

theorem visit_fresh (m : Model) (t : CTree) (fuel : Nat) (path : String) (s : GState)
    (hag : CTree.agrees m t = true) (hnd : (CTree.nodes t).Nodup)
    (hun : ∀ x ∈ CTree.nodes t, dictGet s.seen x = Option.none)
    (hf : (CTree.nodes t).length ≤ fuel) :
    ∃ Δ ΔE,
      (visit m fuel (CTree.root t) path s).seen = s.seen ++ Δ ∧
      Δ.map Prod.fst = CTree.nodes t ∧
      (visit m fuel (CTree.root t) path s).edges = s.edges ++ ΔE ∧
      ΔE.length + 1 = (CTree.nodes t).length := by
  obtain ⟨r, ks⟩ := t
  simp only [CTree.root, CTree.nodes] at hag hnd hun hf ⊢
  cases fuel with
  | zero => simp at hf
  | succ f =>
      have hr_unseen : dictGet s.seen r = Option.none := hun r (List.mem_cons_self r _)
      set i₀ : ObjectInfo := ⟨r, "o" ++ toString (s.seen.length + 1), path⟩ with hi₀
      set s0 : GState := { seen := s.seen ++ [(r, i₀)], edges := s.edges } with hs0
      have hens : ensure r path s = (i₀, s0) := by
        unfold ensure; rw [hr_unseen]
      have hv : visit m (f + 1) r path s =
          (childSpecs m r).foldl (visitStep m (visit m f) i₀ (m.className r)) s0 := by
        simp only [visit]
        rw [hens]
      simp only [CTree.agrees, Bool.and_eq_true, beq_iff_eq] at hag
      have hun0 : ∀ x ∈ CTree.nodesF ks, dictGet s0.seen x = Option.none := by
        intro x hx
        have hxr : x ≠ r := by
          intro hxe; subst hxe
          exact (List.nodup_cons.mp hnd).1 hx
        show dictGet (s.seen ++ [(r, i₀)]) x = Option.none
        rw [dictGet_append_left_of_none _ _ _
          (dictGet_none_of_key_not_mem _ _ (by simpa using hxr))]
        exact hun x (List.mem_cons_of_mem r hx)
      obtain ⟨Δ₁, ΔE₁, h1, h2, h3, h4⟩ := visitF m ks (childSpecs m r) f i₀ (m.className r)
        s0 hag.1 hag.2 (List.nodup_cons.mp hnd).2 hun0
        (Nat.succ_le_succ_iff.mp (by simpa using hf))
      refine ⟨(r, i₀) :: Δ₁, ΔE₁, ?_, ?_, ?_, ?_⟩
      · rw [hv, h1]
        show (s.seen ++ [(r, i₀)]) ++ Δ₁ = _
        simp
      · simp [h2]
      · rw [hv, h3]
      · simp [h4]

theorem buildFold (m : Model) (fuel : Nat) (ts : List CTree) :
    ∀ (pairs : List (Nat × Nat)) (s : GState),
    pairs.map Prod.snd = ts.map CTree.root →
    CTree.agreesF m ts = true →
    (CTree.nodesF ts).Nodup →
    (∀ x ∈ CTree.nodesF ts, dictGet s.seen x = Option.none) →
    (∀ t ∈ ts, (CTree.nodes t).length ≤ fuel) →
    ∃ Δ ΔE,
      (pairs.foldl (fun s p =>
        visit m fuel p.2 ("/" ++ m.className p.2 ++ "[" ++ toString p.1 ++ "]") s) s).seen =
        s.seen ++ Δ ∧
      Δ.map Prod.fst = CTree.nodesF ts ∧
      (pairs.foldl (fun s p =>
        visit m fuel p.2 ("/" ++ m.className p.2 ++ "[" ++ toString p.1 ++ "]") s) s).edges =
        s.edges ++ ΔE ∧
      ΔE.length + ts.length = (CTree.nodesF ts).length := by
  induction ts with
  | nil =>
      intro pairs s hmap hag hnd hun hfl
      simp only [List.map_nil, List.map_eq_nil_iff] at hmap
      subst hmap
      exact ⟨[], [], by simp, by simp [CTree.nodesF], by simp, by simp [CTree.nodesF]⟩
  | cons t ts ih =>
      intro pairs s hmap hag hnd hun hfl
      match pairs with
      | [] => simp at hmap
      | p :: pairs' =>
          simp only [List.map_cons, List.cons.injEq] at hmap
          obtain ⟨hp, hmap'⟩ := hmap
          simp only [CTree.agreesF, Bool.and_eq_true] at hag
          have hnd' : (CTree.nodes t ++ CTree.nodesF ts).Nodup := by
            simpa only [CTree.nodesF] using hnd
          have hdisj := List.disjoint_of_nodup_append hnd'
          rw [List.foldl_cons, hp]
          obtain ⟨Δ₁, ΔE₁, hA1, hA2, hA3, hA4⟩ := visit_fresh m t fuel
            ("/" ++ m.className (CTree.root t) ++ "[" ++ toString p.1 ++ "]") s hag.1
            hnd'.of_append_left
            (fun x hx => hun x (by simp only [CTree.nodesF]; exact List.mem_append_left _ hx))
            (hfl t (List.mem_cons_self t ts))
          have hun1 : ∀ x ∈ CTree.nodesF ts,
              dictGet (visit m fuel (CTree.root t)
                ("/" ++ m.className (CTree.root t) ++ "[" ++ toString p.1 ++ "]") s).seen x =
              Option.none := by
            intro x hx
            rw [hA1]
            rw [dictGet_append_left_of_none _ _ _ (dictGet_none_of_key_not_mem _ _ ?_)]
            · exact hun x (by simp only [CTree.nodesF]; exact List.mem_append_right _ hx)
            · rw [hA2]
              exact fun hc => hdisj hc hx
          obtain ⟨Δ₂, ΔE₂, hB1, hB2, hB3, hB4⟩ := ih pairs' _ hmap' hag.2
            hnd'.of_append_right hun1 (fun u hu => hfl u (List.mem_cons_of_mem t hu))
          refine ⟨Δ₁ ++ Δ₂, ΔE₁ ++ ΔE₂, ?_, ?_, ?_, ?_⟩
          · rw [hB1, hA1]
            simp
          · simp only [List.map_append, hA2, hB2, CTree.nodesF]
          · rw [hB3, hA3]
            simp
          · have hlen : (CTree.nodesF (t :: ts)).length =
                (CTree.nodes t).length + (CTree.nodesF ts).length := by
              simp [CTree.nodesF]
            simp only [List.length_append, List.length_cons]
            omega

theorem length_filter_not_add {α : Type} (p : α → Bool) (l : List α) :
    (l.filter p).length + (l.filter (fun a => !p a)).length = l.length := by
  induction l with
  | nil => rfl
  | cons a l ih =>
      cases h : p a
      · rw [List.filter_cons_of_neg (by simp [h]), List.filter_cons_of_pos (by simp [h])]
        simp only [List.length_cons]
        omega
      · rw [List.filter_cons_of_pos (by simp [h]), List.filter_cons_of_neg (by simp [h])]
        simp only [List.length_cons]
        omega

theorem length_filter_map_eq {α β : Type} (f : α → β) (p : β → Bool) (l : List α) :
    ((l.map f).filter p).length = (l.filter (fun a => p (f a))).length := by
  induction l with
  | nil => rfl
  | cons a l ih =>
      simp only [List.map_cons]
      cases h : p (f a)
      · rw [List.filter_cons_of_neg (by simp [h]), List.filter_cons_of_neg (by simp [h])]
        exact ih
      · rw [List.filter_cons_of_pos (by simp [h]), List.filter_cons_of_pos (by simp [h])]
        simp [ih]

theorem length_filter_mem_of_nodup (L R : List Nat) (hL : L.Nodup) (hR : R.Nodup)
    (hsub : ∀ x ∈ R, x ∈ L) :
    (L.filter (fun x => R.contains x)).length = R.length := by
  have hfn : (L.filter (fun x => R.contains x)).Nodup := hL.filter _
  have hmem : ∀ x, x ∈ L.filter (fun x => R.contains x) ↔ x ∈ R := by
    intro x
    rw [List.mem_filter]
    constructor
    · rintro ⟨-, hc⟩
      simpa [List.contains] using hc
    · intro hx
      exact ⟨hsub x hx, by simpa [List.contains] using hx⟩
  have h1 : (L.filter (fun x => R.contains x)).toFinset = R.toFinset := by
    ext x
    simp only [List.mem_toFinset]
    exact hmem x
  calc (L.filter (fun x => R.contains x)).length
      = (L.filter (fun x => R.contains x)).toFinset.card :=
        (List.toFinset_card_of_nodup hfn).symm
    _ = R.toFinset.card := by rw [h1]
    _ = R.length := List.toFinset_card_of_nodup hR

theorem build_object_graph_objs (m : Model) (fuel : Nat) (roots : List Nat) :
    (build_object_graph m fuel roots).1.map (fun i => i.obj) =
      ((roots.enum.foldl (fun s p => visit m fuel p.2
        ("/" ++ m.className p.2 ++ "[" ++ toString p.1 ++ "]") s)
        ({ seen := [], edges := [] } : GState)).seen).map Prod.fst := by
  unfold build_object_graph
  simp only
  have h : SeenWF ((roots.enum.foldl
      (fun s p => visit m fuel p.2 ("/" ++ m.className p.2 ++ "[" ++ toString p.1 ++ "]") s)
      ({ seen := [], edges := [] } : GState))) := by
    refine foldlPreserves _ SeenWF ?_ _ _ ⟨List.nodup_nil, by intro p hp; cases hp⟩
    intro s p hs
    exact visit_wf m fuel p.2 _ s hs
  rw [List.map_map, Function.comp_def]
  exact List.map_congr_left (fun p hp => h.2 p hp)

/-- **C5.**  For every root sequence whose containment relation forms a true
forest — witnessed by a list of containment trees `ts` with `CTree.agreesF`,
pairwise-distinct objects and the roots as tree roots — `build_object_graph`
lists exactly the objects of the forest in pre-order: every object reachable
from the roots via containment appears exactly once in the node list (no
duplicates, no omissions), and the number of containment edges returned equals
the number of non-root nodes in the node list. -/
theorem c5_forest_completeness (m : Model) (fuel : Nat) (roots : List Nat) (ts : List CTree)
    (hroots : roots = ts.map CTree.root)
    (hag : CTree.agreesF m ts = true)
    (hnd : (CTree.nodesF ts).Nodup)
    (hfuel : ∀ t ∈ ts, (CTree.nodes t).length ≤ fuel) :
    (build_object_graph m fuel roots).1.map (fun i => i.obj) = CTree.nodesF ts ∧
    ((build_object_graph m fuel roots).1.map (fun i => i.obj)).Nodup ∧
    (∀ x, ReachesC m roots x ↔
      x ∈ (build_object_graph m fuel roots).1.map (fun i => i.obj)) ∧
    (build_object_graph m fuel roots).2.length =
      ((build_object_graph m fuel roots).1.filter
        (fun i => !roots.contains i.obj)).length := by
  subst hroots
  set R := ts.map CTree.root with hR
  obtain ⟨Δ, ΔE, h1, h2, h3, h4⟩ := buildFold m fuel ts R.enum
    ({ seen := [], edges := [] } : GState) (by rw [hR, List.enum_map_snd]) hag hnd
    (fun x hx => rfl) hfuel
  have hkeys : (build_object_graph m fuel R).1.map (fun i => i.obj) = CTree.nodesF ts := by
    rw [build_object_graph_objs, h1]
    simpa using h2
  have hnodup := build_object_graph_wf m fuel R
  have hreach : ∀ x, ReachesC m R x ↔
      x ∈ (build_object_graph m fuel R).1.map (fun i => i.obj) := by
    intro x
    rw [hkeys]
    unfold ReachesC
    constructor
    · rintro ⟨r, hr, hreachx⟩
      exact CTree.mem_of_reaches m ts hag r x (hR ▸ hr) hreachx
    · intro hx
      rcases CTree.reachesF_of_mem m ts hag x hx with ⟨t, ht, hreachx⟩
      exact ⟨CTree.root t, hR ▸ List.mem_map.mpr ⟨t, ht, rfl⟩, hreachx⟩
  have hedge_len : (build_object_graph m fuel R).2.length + ts.length =
      (CTree.nodesF ts).length := by
    show ((R.enum.foldl (fun s p => visit m fuel p.2
      ("/" ++ m.className p.2 ++ "[" ++ toString p.1 ++ "]") s)
      ({ seen := [], edges := [] } : GState)).edges).length + ts.length = _
    rw [h3]
    simpa using h4
  have hfilt : ((build_object_graph m fuel R).1.filter
      (fun i => R.contains i.obj)).length = R.length := by
    have hstep1 := length_filter_map_eq (fun i : ObjectInfo => i.obj)
      (fun x => R.contains x) (build_object_graph m fuel R).1
    rw [← hstep1, hkeys]
    refine length_filter_mem_of_nodup _ _ hnd ?_ ?_
    · rw [hR]
      exact CTree.rootsF_nodup ts hnd
    · intro r hrr
      rw [hR] at hrr
      rcases List.mem_map.mp hrr with ⟨t, ht, hrt⟩
      exact hrt ▸ CTree.root_mem_nodesF ts t ht
  refine ⟨hkeys, hnodup, hreach, ?_⟩
  have htot := length_filter_not_add (fun i : ObjectInfo => R.contains i.obj)
    (build_object_graph m fuel R).1
  simp only [] at htot
  have hlen1 : (build_object_graph m fuel R).1.length = (CTree.nodesF ts).length := by
    calc (build_object_graph m fuel R).1.length
        = ((build_object_graph m fuel R).1.map (fun i => i.obj)).length :=
          (List.length_map _ _).symm
      _ = (CTree.nodesF ts).length := by rw [hkeys]
  have hRlen : R.length = ts.length := by rw [hR]; exact List.length_map _ _
  omega

/-- Witness for `c5_forest_completeness`: on the concrete two-tree forest
`forestM` with roots `[1, 5]`, the hypotheses hold by computation and the node
list is exactly the pre-order `[1, 2, 4, 3, 5]` of the forest. -/
theorem c5_forest_completeness_witness :
    (CTree.agreesF forestM forestTs = true ∧ (CTree.nodesF forestTs).Nodup) ∧
    (build_object_graph forestM 5 [1, 5]).1.map (fun i => i.obj) = CTree.nodesF forestTs :=
  ⟨⟨by decide, by decide⟩,
   (c5_forest_completeness forestM 5 [1, 5] forestTs (by decide) (by decide)
     (by decide) (by decide)).1⟩
